import Mathlib

/-!
# Verification of the Lore-Book timeline core

Shallow embedding of the Lore-Book repository's timeline event store
(`lorekeeper/timeline_manager.py`) and monthly arc engine
(`lorekeeper/monthly_arc/monthly_engine.py`), together with proofs of the
frozen claims about them.

Conventions used throughout:
* Python `str` is Lean `String`; Python string comparison (`<`, `<=`) is the
  lexicographic order on Unicode code points, which coincides with Mathlib's
  linear order on `String`.
* Python dicts whose iteration order matters are modelled as insertion-ordered
  association lists.
* The per-year JSON shard files are modelled as an association list from the
  year to the list of stored records, kept sorted by year (matching the
  `sorted(glob)` enumeration used by queries).
* Falsy tests on Python strings/lists/Optionals (`if tags`, `events or ...`,
  `if not corrected.source`) are modelled explicitly.
-/

namespace LoreBook

set_option linter.unusedVariables false

/-- Modelled from the spec: `TimelineEvent` (from the missing
`lorekeeper/event_schema.py`): a record with `id`, `date` (ISO-8601 string),
`title`, `type`, `details`, `tags` (list of strings), `source`, `metadata`
(string-keyed mapping, carried as an association list) and an `archived` flag
defaulting to `false`.  The dataclass defaults (`source` empty, `metadata`
empty, `archived` false) follow the constructor calls in the repository's
tests, which omit these fields freely. -/
structure TimelineEvent where
  id : String
  date : String
  title : String := ""
  type : String := ""
  details : String := ""
  tags : List String := []
  source : String := ""
  metadata : List (String × String) := []
  archived : Bool := false
deriving Repr, DecidableEq

/-- Lookup in a string-keyed mapping (Python `dict.get`, returning `None`
when the key is absent). -/
def metaGet (m : List (String × String)) (k : String) : Option String :=
  (m.find? (fun p => p.1 = k)).map (fun p => p.2)

/-- Python truthiness of an optional string: `None` and `""` are falsy. -/
def pyStr (o : Option String) : Option String :=
  match o with
  | some "" => none
  | o => o

/-- The year-sharded persistent store: one record list per calendar year,
kept in increasing year order (queries enumerate shard files with
`sorted(self.base_path.glob("*.json"))`).  Empty shards lazily created by
reads are omitted: they contain no events and affect no observable result. -/
def Store : Type := List (Nat × List TimelineEvent)

/-- All records of the store, in shard order (the candidate list a
year-less `get_events` filters). -/
def allRows (s : Store) : List TimelineEvent :=
  (s.map (fun p => p.2)).flatten

/-- The records of a single year shard (`load_year`); a missing shard is
initialised empty. -/
def getShard (s : Store) (y : Nat) : List TimelineEvent :=
  ((s.find? (fun p => p.1 = y)).map (fun p => p.2)).getD []

/-- Append a record to its year shard, creating the shard (in year order)
when absent — the write half of `add_event`. -/
def addToShards (s : Store) (y : Nat) (e : TimelineEvent) : Store :=
  match s with
  | [] => [(y, [e])]
  | (y', rows) :: rest =>
    if y = y' then (y', rows ++ [e]) :: rest
    else if y < y' then (y, [e]) :: (y', rows) :: rest
    else (y', rows) :: addToShards rest y e

/-- Modelled from the spec: the shard-year resolution
`datetime.fromisoformat(event.date).year` of `add_event` (the Python
standard library does the parsing).  A `YYYY-MM-DD` digit string parses to
its leading four digits; anything else raises `DateParseError`, modelled as
`none`.  (Calendar-level day validation is not needed by any claim.) -/
def parseYear (s : String) : Option Nat :=
  match s.toList with
  | [a, b, c, d, '-', e, f, '-', g, h] =>
    if (a.isDigit && b.isDigit && c.isDigit && d.isDigit
        && e.isDigit && f.isDigit && g.isDigit && h.isDigit) then
      some (((a.toNat - 48) * 1000) + ((b.toNat - 48) * 100) + ((c.toNat - 48) * 10) + (d.toNat - 48))
    else none
  | _ => none

/-- `TimelineManager.add_event`: resolve the shard year from the event's
date and append the record; `none` models the propagated parse error (the
store is untouched in that case, since the year is resolved before any
write). -/
def add_event (s : Store) (e : TimelineEvent) : Option Store :=
  (parseYear e.date).map (fun y => addToShards s y e)

/-- Lexicographic comparison of character lists by code point — Python's
string `<`.  (A structural implementation; `strLtList_iff` below identifies
it with the standard lexicographic order.) -/
def strLtList : List Char → List Char → Bool
  | [], [] => false
  | [], _ :: _ => true
  | _ :: _, [] => false
  | a :: as, b :: bs => if a < b then true else if b < a then false else strLtList as bs

/-- Python string `<`. -/
def strLt (s t : String) : Bool := strLtList s.toList t.toList

/-- Python string `<=` (the complement of the reversed strict comparison,
as in any total order). -/
def strLe (s t : String) : Bool := !strLt t s

/-- The conjunctive record filter of `TimelineManager.get_events`
(`in_range` in the source). -/
def in_range (include_archived : Bool) (tags : List String) (start_date end_date : Option String)
    (e : TimelineEvent) : Bool :=
  if !include_archived && e.archived then false
  else if !tags.isEmpty && !(tags.any (fun t => e.tags.contains t)) then false
  else if (pyStr start_date).isSome && strLt e.date ((pyStr start_date).getD "") then false
  else if (pyStr end_date).isSome && strLt ((pyStr end_date).getD "") e.date then false
  else true

/-- The candidate records `get_events` filters: the single requested year
shard, or every existing shard in year order. -/
def candidates (s : Store) (year : Option Nat) : List TimelineEvent :=
  match year with
  | some y => getShard s y
  | none => allRows s

/-- `TimelineManager.get_events`: the conjunctive filter applied to the
candidate records.  `tags = none` and `tags = some []` coincide
(`tags = tags or []`). -/
def get_events (s : Store) (year : Option Nat) (start_date end_date : Option String)
    (tags : Option (List String)) (include_archived : Bool) : List TimelineEvent :=
  (candidates s year).filter (in_range include_archived (tags.getD []) start_date end_date)

/-- The in-place mutation `item["archived"] = True` applied by
`archive_event` to every record of the rewritten shard whose id matches. -/
def archiveRow (event_id : String) (r : TimelineEvent) : TimelineEvent :=
  if r.id = event_id then { r with archived := true } else r

/-- The value `archive_event` returns from a shard scan: the last matching
record of the shard, after its `archived` flag was set. -/
def shardMatch (rows : List TimelineEvent) (event_id : String) : Option TimelineEvent :=
  ((rows.filter (fun r => r.id = event_id)).getLast?).map (fun r => { r with archived := true })

/-- `TimelineManager.archive_event`: scan the shards in order; in the first
shard containing the id, set `archived := true` on every matching record,
rewrite that shard and return the (now archived) record; return `none` when
no shard contains the id.  (The source enumerates shard files in `glob`
order; the model fixes the year order, which queries also use.) -/
def archive_event (s : Store) (event_id : String) : Store × Option TimelineEvent :=
  match s with
  | [] => ([], none)
  | (y, rows) :: rest =>
    match shardMatch rows event_id with
    | some ev => ((y, rows.map (archiveRow event_id)) :: rest, some ev)
    | none =>
      let r := archive_event rest event_id
      ((y, rows) :: r.1, r.2)

/-- The replacement record `correct_event` builds when the caller left
`source` falsy (`if not corrected.source`): all fields are copied explicitly
except `metadata`, which therefore resets to the dataclass default. -/
def forceCorrection (e : TimelineEvent) : TimelineEvent :=
  if e.source = "" then
    { id := e.id, date := e.date, title := e.title, type := e.type,
      details := e.details, tags := e.tags, source := "correction",
      metadata := [], archived := e.archived }
  else e

/-- `TimelineManager.correct_event`: archive the original; on "not found"
return `none` with no side effect; otherwise append the (source-forced)
corrected event.  The outer `Option` models a `DateParseError` raised by the
inner `add_event` (in which case the archive write has already happened —
the documented non-atomicity). -/
def correct_event (s : Store) (event_id : String) (corrected_event : TimelineEvent) :
    Option (Store × Option TimelineEvent) :=
  let r := archive_event s event_id
  match r.2 with
  | none => some (s, none)
  | some _ =>
    let c := forceCorrection corrected_event
    (add_event r.1 c).map (fun s' => (s', some c))

/-- One mutating store operation, for reasoning about arbitrary call
sequences. -/
inductive Op where
  | add (e : TimelineEvent)
  | archive (event_id : String)
  | correct (event_id : String) (corrected_event : TimelineEvent)
deriving Repr, DecidableEq

/-- The store state after one operation.  A raised `DateParseError` leaves
the state of `add_event` untouched; one raised inside `correct_event` leaves
the original archived with no replacement appended (the documented
non-atomicity). -/
def applyOp (s : Store) : Op → Store
  | Op.add e => (add_event s e).getD s
  | Op.archive event_id => (archive_event s event_id).1
  | Op.correct event_id ce =>
    let r := archive_event s event_id
    match r.2 with
    | none => s
    | some _ => (add_event r.1 (forceCorrection ce)).getD r.1

/-- The store state after a sequence of operations. -/
def applyOps (s : Store) (ops : List Op) : Store :=
  ops.foldl applyOp s

/-! ## The calendar-date model used by the monthly arc engine -/

/-- Python `datetime.date`: a Gregorian calendar date with lexicographic
comparison on (year, month, day). -/
structure PyDate where
  year : Nat
  month : Nat
  day : Nat
deriving Repr, DecidableEq

/-- The Gregorian leap-year rule (Python `calendar.isleap`). -/
def isLeapYear (y : Nat) : Bool :=
  Nat.beq (y % 4) 0 && (!Nat.beq (y % 100) 0 || Nat.beq (y % 400) 0)

/-- Length of a month of the Gregorian calendar (0 for out-of-range month
numbers, which valid dates never carry). -/
def daysInMonth (y m : Nat) : Nat :=
  match m with
  | 1 => 31
  | 2 => if isLeapYear y then 29 else 28
  | 3 => 31
  | 4 => 30
  | 5 => 31
  | 6 => 30
  | 7 => 31
  | 8 => 31
  | 9 => 30
  | 10 => 31
  | 11 => 30
  | 12 => 31
  | _ => 0

/-- A structurally valid Gregorian date (Python's `date` constructor
additionally caps the year at 9999; claims state that bound separately where
it matters). -/
def dateOk (d : PyDate) : Prop :=
  1 ≤ d.year ∧ 1 ≤ d.month ∧ d.month ≤ 12 ∧ 1 ≤ d.day ∧ d.day ≤ daysInMonth d.year d.month

instance (d : PyDate) : Decidable (dateOk d) := by
  unfold dateOk
  infer_instance

/-- Python `date` `<`: lexicographic on (year, month, day). -/
def dateLt (a b : PyDate) : Bool :=
  Nat.blt a.year b.year
    || (Nat.beq a.year b.year
        && (Nat.blt a.month b.month || (Nat.beq a.month b.month && Nat.blt a.day b.day)))

/-- Python `date` `<=`. -/
def dateLe (a b : PyDate) : Bool := dateLt a b || a == b

/-- Python `min` of two dates: the second argument only when it is strictly
smaller. -/
def minDate (a b : PyDate) : PyDate := if dateLt b a then b else a

/-- The next calendar day (`d + timedelta(days=1)`). -/
def succDay (d : PyDate) : PyDate :=
  if d.day < daysInMonth d.year d.month then ⟨d.year, d.month, d.day + 1⟩
  else if d.month < 12 then ⟨d.year, d.month + 1, 1⟩
  else ⟨d.year + 1, 1, 1⟩

/-- `d + timedelta(days=n)`. -/
def addDays (d : PyDate) : Nat → PyDate
  | 0 => d
  | n + 1 => succDay (addDays d n)

/-- The previous calendar day (`d - timedelta(days=1)`). -/
def predDay (d : PyDate) : PyDate :=
  if 1 < d.day then ⟨d.year, d.month, d.day - 1⟩
  else if 1 < d.month then ⟨d.year, d.month - 1, daysInMonth d.year (d.month - 1)⟩
  else ⟨d.year - 1, 12, 31⟩

/-- `d - timedelta(days=n)`. -/
def subDays (d : PyDate) : Nat → PyDate
  | 0 => d
  | n + 1 => predDay (subDays d n)

/-- The decimal digit characters, as Python's zero-padded `%d` formatting
produces them. -/
def digitChar (n : Nat) : Char :=
  match n with
  | 0 => '0' | 1 => '1' | 2 => '2' | 3 => '3' | 4 => '4'
  | 5 => '5' | 6 => '6' | 7 => '7' | 8 => '8' | _ => '9'

/-- Two-digit zero-padded decimal rendering (`%02d` for values below 100). -/
def pad2 (n : Nat) : List Char := [digitChar (n / 10 % 10), digitChar (n % 10)]

/-- Four-digit zero-padded decimal rendering (`%04d` for values below
10000), split as two two-digit groups. -/
def pad4 (n : Nat) : List Char := pad2 (n / 100) ++ pad2 (n % 100)

/-- Python `date.isoformat()`: the `YYYY-MM-DD` rendering. -/
def isoformat (d : PyDate) : String :=
  String.mk (pad4 d.year ++ '-' :: (pad2 d.month ++ '-' :: pad2 d.day))

/-- A strictly monotone `Nat` measure of dates (day < 40 and
month * 40 + day < 600 for structurally valid dates), used as recursion
fuel for the week partition loop. -/
def dateIdx (d : PyDate) : Nat := d.year * 600 + d.month * 40 + d.day

/-- One weekly window of `MonthlyArcEngine._week_ranges`:
`(label, start, end, events_in_week)`. -/
structure WeekWindow where
  label : String
  wstart : PyDate
  wend : PyDate
  events : List TimelineEvent
deriving Repr, DecidableEq

/-- The window label `f"Week {i} ({cursor} to {week_end})"`. -/
def weekLabel (i : Nat) (c w : PyDate) : String :=
  "Week " ++ toString i ++ " (" ++ isoformat c ++ " to " ++ isoformat w ++ ")"

/-- The membership test of `_week_ranges`:
`cursor.isoformat() <= event.date <= week_end.isoformat()` (string
comparison). -/
def inWeek (c w : PyDate) (e : TimelineEvent) : Bool :=
  strLe (isoformat c) e.date && strLe e.date (isoformat w)

/-- One loop iteration's window: `week_end = min(cursor + 6 days, end)`, the
sequential label, and the events whose date string falls inside the bounds. -/
def mkWindow (events : List TimelineEvent) (stop cursor : PyDate) (idx : Nat) : WeekWindow :=
  { label := weekLabel idx cursor (minDate (addDays cursor 6) stop),
    wstart := cursor,
    wend := minDate (addDays cursor 6) stop,
    events := events.filter (inWeek cursor (minDate (addDays cursor 6) stop)) }

/-- The loop body of `MonthlyArcEngine._week_ranges`, with an explicit fuel
argument standing in for the termination argument of the Python `while`
loop (the cursor strictly increases each iteration; `week_ranges` supplies
sufficient fuel). -/
def weekRangesAux (events : List TimelineEvent) (stop : PyDate) :
    Nat → PyDate → Nat → List WeekWindow
  | 0, _, _ => []
  | fuel + 1, cursor, idx =>
    match dateLe cursor stop with
    | true =>
      mkWindow events stop cursor idx
        :: weekRangesAux events stop fuel (succDay (mkWindow events stop cursor idx).wend) (idx + 1)
    | false => []

/-- `MonthlyArcEngine._week_ranges`: partition `[start, stop]` into
consecutive 7-day windows anchored at `start`, assigning each event by the
string comparison of its date against the window bounds. -/
def week_ranges (start stop : PyDate) (events : List TimelineEvent) : List WeekWindow :=
  weekRangesAux events stop (dateIdx stop + 1 - dateIdx start) start 1

/-- The step-by-step specification of the `_week_ranges` loop, used to state
and prove its properties: each window starts at the cursor, ends at
`min(cursor+6, stop)`, carries the sequential label and the string-filtered
events, and the next window resumes one day later; the loop stops exactly
when the cursor passes `stop`. -/
def WindowsChain (events : List TimelineEvent) (stop : PyDate) :
    PyDate → Nat → List WeekWindow → Prop
  | cursor, _, [] => dateLe cursor stop = false
  | cursor, idx, w :: rest =>
    dateLe cursor stop = true
    ∧ w = mkWindow events stop cursor idx
    ∧ WindowsChain events stop (succDay w.wend) (idx + 1) rest

/-- `MonthlyArcEngine._resolve_month_range` for already-normalised date
arguments (Python `date` objects are always truthy, so the source's
falsy checks coincide with `Option` checks here); `now` is the reference
"today" (`datetime.now(UTC).date()`), made an explicit argument.  The final
`none` fallbacks reproduce the source's guard, which is unreachable. -/
def resolve_month_range (now : PyDate) (start_date end_date : Option PyDate) :
    PyDate × PyDate :=
  match start_date, end_date with
  | none, none =>
    let start : PyDate := ⟨now.year, now.month, 1⟩
    let nextMonth : PyDate :=
      if now.month = 12 then ⟨now.year + 1, 1, 1⟩ else ⟨now.year, now.month + 1, 1⟩
    (start, predDay nextMonth)
  | sd, ed =>
    let e : Option PyDate :=
      match sd, ed with
      | some s, none => some (addDays s 30)
      | _, e => e
    let s : Option PyDate :=
      match sd, ed with
      | none, some t => some (subDays t 30)
      | s, _ => s
    match s, e with
    | none, _ => (subDays now 30, now)
    | some _, none => (subDays now 30, now)
    | some s, some t => if dateLt t s then (t, s) else (s, t)

/-- Sample event used by concrete witnesses. -/
def evHoliday : TimelineEvent :=
  { id := "e1", date := "2024-12-25", title := "Christmas", type := "holiday",
    details := "Xmas", tags := ["holiday"] }

/-- Sample event used by concrete witnesses. -/
def evBjj : TimelineEvent :=
  { id := "e2", date := "2024-06-10", title := "Tournament", type := "martial_arts",
    details := "BJJ comp", tags := ["bjj"] }

/-- Sample event used by concrete witnesses. -/
def evNote : TimelineEvent :=
  { id := "e3", date := "2025-03-01", title := "Old Detail", type := "note",
    details := "Wrong info" }

/-- Sample two-shard store used by concrete witnesses. -/
def storeSample : Store :=
  [(2024, [evBjj, evHoliday]), (2025, [evNote])]

/-- Sample corrected event used by the C1 witness (source left unset). -/
def ceSample : TimelineEvent :=
  { id := "e3", date := "2025-03-01", title := "Correct Detail", type := "note",
    details := "Fixed info", tags := ["correction"] }

/-! ## The monthly arc engine: tasks, epics, themes, narrative, drift -/

/-- Python `a or b` for a list `a` (an empty list is falsy). -/
def pyListOr {α : Type} (a b : List α) : List α :=
  match a with
  | [] => b
  | _ => a

/-- Python `a or b` where `a : Optional[list]` (`None` and `[]` are both
falsy, so both fall through to `b`). -/
def pyOptListOr {α : Type} (o : Option (List α)) (d : List α) : List α :=
  pyListOr (o.getD []) d

/-- Round-half-to-even to an integer (the rounding rule of Python's
`round`), computed on the numerator and denominator: `f` is the floor and
`r / d` the fractional part, compared against one half.  The model works
in exact rationals, eliding binary floating-point representation error,
which no concrete value in this development exercises. -/
def roundHalfEven (q : ℚ) : ℤ :=
  let n := q.num
  let d := (q.den : ℤ)
  let f := Int.fdiv n d
  let r := n - f * d
  if 2 * r < d then f
  else if d < 2 * r then f + 1
  else if f % 2 = 0 then f else f + 1

/-- Python `round(q, 2)`: round-half-even at the second decimal place
(`mkRat` builds the exact scaled rationals). -/
def round2 (q : ℚ) : ℚ := mkRat (roundHalfEven (mkRat (q.num * 100) q.den)) 100

/-- The dict a `summarize_month` collaborator returns, restricted to the
keys `summarize_month_tasks` reads: an outer `none` models an absent key
(`summary.update` then leaves that default in place), and for
`efficiency_score` the inner `Option` distinguishes an explicit Python
`None` value (`some none`) from a number (`some (some v)`). -/
structure TaskSummaryResult where
  completed : Option (List String) := none
  overdue : Option (List String) := none
  new_tasks : Option (List String) := none
  priority : Option (List String) := none
  efficiency_score : Option (Option ℚ) := none
  week_breakdowns : Option (List (List String)) := none
deriving Repr, DecidableEq

/-- The duck-typed task collaborator of `MonthlyArcEngine`, by the
attribute names `summarize_month_tasks` probes.  A `none` field models an
absent attribute (`hasattr` false); a `some` field carries the value the
attribute produces (by calling it, or by `list(attr)` after a `TypeError`
— either way a value).  `summarize_month = some r` carries the returned
dict; `r` with all fields `none` also covers a falsy return, where
`summary.update(... or {})` changes nothing. -/
structure TaskEngine where
  summarize_month : Option TaskSummaryResult := none
  get_completed_tasks : Option (List String) := none
  get_overdue_tasks : Option (List String) := none
  get_overdue : Option (List String) := none
  get_new_tasks : Option (List String) := none
  get_priority_tasks : Option (List String) := none
  get_priority : Option (List String) := none
  weekly_breakdown : Option (List (List String)) := none
  breakdown_by_week : Option (List (List String)) := none
deriving Repr, DecidableEq

/-- The summary dict `summarize_month_tasks` returns; its key set is fixed
by the initialisation, so it is a plain record.  `efficiency_score = none`
is an explicit Python `None` (possible only transiently — the final
recomputation step eliminates it). -/
structure TaskSummary where
  completed : List String
  overdue : List String
  new_tasks : List String
  priority : List String
  efficiency_score : Option ℚ
  week_breakdowns : List (List String)
deriving Repr, DecidableEq

/-- `MonthlyArcEngine._safe_task_call`: an absent attribute yields `[]`,
otherwise the attribute's list. -/
def safe_task_call (attr : Option (List String)) : List String := attr.getD []

/-- `MonthlyArcEngine.summarize_month_tasks`: start from the defaults
(efficiency 0.0), overlay the collaborator's monthly summary if it exposes
one — otherwise gather the individually-named accessors (with `or`
fallbacks between the alternative names); overlay the weekly breakdown;
finally recompute `efficiency_score = round(completed / (completed +
overdue or 1), 2)` only when the current value is `None` (the key is
always present, having been initialised). -/
def summarize_month_tasks (t : TaskEngine) : TaskSummary :=
  let base : TaskSummary :=
    { completed := [], overdue := [], new_tasks := [], priority := [],
      efficiency_score := some 0, week_breakdowns := [] }
  let s1 : TaskSummary :=
    match t.summarize_month with
    | some r =>
      { completed := r.completed.getD base.completed,
        overdue := r.overdue.getD base.overdue,
        new_tasks := r.new_tasks.getD base.new_tasks,
        priority := r.priority.getD base.priority,
        efficiency_score :=
          match r.efficiency_score with
          | some v => v
          | none => base.efficiency_score,
        week_breakdowns := r.week_breakdowns.getD base.week_breakdowns }
    | none =>
      { base with
        completed := safe_task_call t.get_completed_tasks,
        overdue := pyListOr (safe_task_call t.get_overdue_tasks) (safe_task_call t.get_overdue),
        new_tasks := safe_task_call t.get_new_tasks,
        priority := pyListOr (safe_task_call t.get_priority_tasks) (safe_task_call t.get_priority) }
  let s2 : TaskSummary :=
    match t.weekly_breakdown with
    | some wb => { s1 with week_breakdowns := wb }
    | none =>
      match t.breakdown_by_week with
      | some wb => { s1 with week_breakdowns := wb }
      | none => s1
  match s2.efficiency_score with
  | none =>
    let completed_count := s2.completed.length
    let overdue_count := s2.overdue.length
    let base_count :=
      if completed_count + overdue_count = 0 then 1 else completed_count + overdue_count
    { s2 with efficiency_score := some (round2 (mkRat (completed_count : ℤ) base_count)) }
  | some _ => s2

/-- The fixed tag-to-epic mapping of `detect_epic_progression` (a literal
dict, hence insertion-ordered). -/
def epic_tags : List (String × String) :=
  [("robotics", "Robotics: Omega-1"),
   ("omega1", "Robotics: Omega-1"),
   ("japanese", "Japanese Language"),
   ("bjj", "Brazilian Jiu-Jitsu"),
   ("finances", "Finances"),
   ("relationships", "Relationships"),
   ("health", "Health"),
   ("career", "Career")]

/-- The combined `tag in epic_tags` test and `epic_tags[tag]` lookup. -/
def epicOfTag (t : String) : Option String :=
  (epic_tags.find? (fun p => p.1 = t)).map (fun p => p.2)

/-- Append to an insertion-ordered dict of lists
(`d.setdefault(k, []).append(v)`): an existing key keeps its position and
grows its list in place; a new key is appended at the end.  (Keys occur at
most once, so updating the first match is the dict update.) -/
def dictAppend (d : List (String × List TimelineEvent)) (k : String) (v : TimelineEvent) :
    List (String × List TimelineEvent) :=
  match d with
  | [] => [(k, [v])]
  | p :: rest => if p.1 = k then (p.1, p.2 ++ [v]) :: rest else p :: dictAppend rest k v

/-- Lookup in an insertion-ordered dict of lists (an absent key reads as
`[]`). -/
def dictGet (d : List (String × List TimelineEvent)) (k : String) : List TimelineEvent :=
  match d with
  | [] => []
  | p :: rest => if p.1 = k then p.2 else dictGet rest k

/-- The (epic, event) pairs the nested loop of `detect_epic_progression`
generates, in loop order: one pair per carried tag the mapping knows. -/
def epicPairs (events : List TimelineEvent) : List (String × TimelineEvent) :=
  events.flatMap (fun e => e.tags.filterMap (fun t => (epicOfTag t).map (fun k => (k, e))))

/-- The insertion-ordered `epic_events` dict of `detect_epic_progression`. -/
def epicDict (events : List TimelineEvent) : List (String × List TimelineEvent) :=
  (epicPairs events).foldl (fun d p => dictAppend d p.1 p.2) []

/-- One output record of `detect_epic_progression`. -/
structure EpicRecord where
  epic : String
  progress : String
  milestones : List String
deriving Repr, DecidableEq

/-- `MonthlyArcEngine.detect_epic_progression`: cluster events by the epic
tag mapping, then report each group's size in the progress text and its
truthy titles as milestones. -/
def detect_epic_progression (events : List TimelineEvent) : List EpicRecord :=
  (epicDict events).map (fun p =>
    { epic := p.1,
      progress := toString p.2.length ++ " updates recorded.",
      milestones := (p.2.filter (fun e => e.title != "")).map (fun e => e.title) })

/-- Modelled from the spec: the group of events claimed for one epic —
each event repeated once per carried tag that maps to that epic, in event
order.  (Compared against the source-derived `epicDict` by the C8
theorem.) -/
def epicGroupSpec (events : List TimelineEvent) (epic : String) : List TimelineEvent :=
  events.flatMap (fun e => (e.tags.filter (fun t => epicOfTag t = some epic)).map (fun _ => e))

/-- Bump a counter in an insertion-ordered dict (`d[k] = d.get(k, 0) + 1`):
an existing key keeps its position; a new key is appended with count 1.
(Keys occur at most once, so updating the first match is the dict
update.) -/
def bumpCount (d : List (String × Nat)) (k : String) : List (String × Nat) :=
  match d with
  | [] => [(k, 1)]
  | p :: rest => if p.1 = k then (p.1, p.2 + 1) :: rest else p :: bumpCount rest k

/-- The insertion-ordered `tag_counts` dict of `infer_monthly_themes` (and
the `tags` statistic of `gather_month_events`). -/
def tagCounts (events : List TimelineEvent) : List (String × Nat) :=
  events.foldl (fun d e => e.tags.foldl bumpCount d) []

/-- One insertion step of a stable sort by descending count: the new item
walks past exactly the items with a strictly larger count, landing before
every equal-count item that followed it in the input. -/
def insCountDesc (x : String × Nat) : List (String × Nat) → List (String × Nat)
  | [] => [x]
  | y :: ys => if x.2 < y.2 then y :: insCountDesc x ys else x :: y :: ys

/-- Python's `sorted(tag_counts.items(), key=lambda item: item[1],
reverse=True)` — a stable descending sort by count, modelled as stable
insertion sort. -/
def sortCountDesc : List (String × Nat) → List (String × Nat)
  | [] => []
  | x :: xs => insCountDesc x (sortCountDesc xs)

/-- One insertion step of a stable ascending lexicographic string sort. -/
def insStrAsc (x : String) : List String → List String
  | [] => [x]
  | y :: ys => if strLt y x then y :: insStrAsc x ys else x :: y :: ys

/-- Python `sorted(strings)`: stable ascending lexicographic sort,
modelled as stable insertion sort. -/
def sortStrAsc : List String → List String
  | [] => []
  | x :: xs => insStrAsc x (sortStrAsc xs)

/-- The truthy sentiment-or-tone mood of an event
(`meta.get("sentiment") or meta.get("tone")`, collected only when
truthy). -/
def moodOf (e : TimelineEvent) : Option String :=
  match pyStr (metaGet e.metadata "sentiment") with
  | some v => some v
  | none => pyStr (metaGet e.metadata "tone")

/-- The narrative dict a weekly arc carries
(`arc.get("narrative", {}) or {}`), restricted to the fields the monthly
engine reads; an absent key reads as the falsy default. -/
structure WeekNarrative where
  hook : String := ""
  arc : String := ""
  turning_points : List String := []
deriving Repr, DecidableEq

/-- One entry of `synthesize_weekly_arcs`' output:
`{"week_label": label, "arc": <weekly engine result>}`.  The weekly
collaborator is modelled as returning a dict carrying a `narrative`
mapping (the shape `_call_weekly_arc_engine` produces for the repository's
weekly engine); the monthly engine reads nothing else of it. -/
structure WeekArcEntry where
  week_label : String
  narrative : WeekNarrative
deriving Repr, DecidableEq

/-- The motif/subplot collection loop of `infer_monthly_themes` and
`generate_month_narrative` (the same four source lines in each): the
truthy `arc` strings of the weekly narratives, in week order. -/
def motifsOf (weekly_arcs : List WeekArcEntry) : List String :=
  weekly_arcs.filterMap (fun w => if w.narrative.arc = "" then none else some w.narrative.arc)

/-- The keyword list of the special-track scan of `infer_monthly_themes`. -/
def specialKeywords : List String := ["robotics", "omega1", "japanese", "bjj", "training"]

/-- The `trending` variable of `infer_monthly_themes`: the tags counted
more than once, or — when there are none but some tags exist — the top 3
tags by frequency from the stable descending sort. -/
def trendingTags (events : List TimelineEvent) : List String :=
  let tag_counts := tagCounts events
  let trending0 := (tag_counts.filter (fun p => 1 < p.2)).map (fun p => p.1)
  if trending0.isEmpty && !tag_counts.isEmpty then
    ((sortCountDesc tag_counts).map (fun p => p.1)).take 3
  else trending0

/-- `MonthlyArcEngine.infer_monthly_themes`. -/
def infer_monthly_themes (events : List TimelineEvent) (weekly_arcs : List WeekArcEntry) :
    List String :=
  let tag_counts := tagCounts events
  let trending := trendingTags events
  let motifs := motifsOf weekly_arcs
  let emotional_patterns := events.filterMap moodOf
  let special_tracks :=
    (specialKeywords.filter (fun k => tag_counts.any (fun p => p.1 = k))).map
      (fun k => "Progress in " ++ k)
  let themes :=
    (if trending.isEmpty then [] else
      ["Trending tags: " ++ String.intercalate ", " (sortStrAsc trending)])
    ++ (if motifs.isEmpty then [] else
      ["Repeated motifs: " ++ String.intercalate ", " motifs])
    ++ (if emotional_patterns.isEmpty then [] else
      ["Emotional patterns: " ++ String.intercalate ", " emotional_patterns])
    ++ special_tracks
  pyListOr themes ["No major themes detected."]

/-- Modelled from the spec: the distinct elements of a list in first-seen
order (the claimed tie-break order of the trending fallback); `seen`
accumulates the already-listed elements. -/
def dedupFirstAux (seen : List String) : List String → List String
  | [] => []
  | x :: xs =>
    if x ∈ seen then dedupFirstAux seen xs
    else x :: dedupFirstAux (seen ++ [x]) xs

/-- Modelled from the spec: distinct elements in first-seen order. -/
def dedupFirst (l : List String) : List String := dedupFirstAux [] l

/-- The collaborators of `MonthlyArcEngine`, as its monthly methods use
them: the timeline manager is the repository's `TimelineManager` over a
concrete store; the weekly engine exposes `construct_week_arc` (the first
name `_call_weekly_arc_engine` probes) returning a result carrying a
`narrative`; the stitcher exposes `stitch` returning a string; the drift
auditor exposes `audit` returning the issue list; the task collaborator is
the duck-typed `TaskEngine`. -/
structure EngineDeps where
  store : Store
  construct_week_arc : List TimelineEvent → PyDate → PyDate → WeekNarrative
  stitch : List TimelineEvent → String
  audit : List TimelineEvent → List String
  task_engine : TaskEngine

/-- The `stats` mapping of `gather_month_events`; `week_splits` entries are
`(label, (start_iso, end_iso, count))`. -/
structure MonthStats where
  count : Nat
  categories : List (String × Nat)
  tags : List (String × Nat)
  sentiment_summary : List (String × Nat)
  week_splits : List (String × (String × String × Nat))
deriving Repr, DecidableEq

/-- The return value of `gather_month_events`. -/
structure MonthData where
  events : List TimelineEvent
  stats : MonthStats
deriving Repr, DecidableEq

/-- The event category of the statistics loop
(`getattr(event, "type", "") or "uncategorized"`). -/
def categoryOf (e : TimelineEvent) : String :=
  if e.type = "" then "uncategorized" else e.type

/-- `MonthlyArcEngine.gather_month_events`, with the reference "today" of
`_resolve_month_range` explicit.  The three per-event counters of the
single statistics loop update independent dicts, so they are three folds. -/
def gather_month_events (deps : EngineDeps) (now : PyDate)
    (start_date end_date : Option PyDate) : MonthData :=
  let r := resolve_month_range now start_date end_date
  let events := get_events deps.store none (some (isoformat r.1)) (some (isoformat r.2)) none false
  { events := events,
    stats :=
      { count := events.length,
        categories := events.foldl (fun d e => bumpCount d (categoryOf e)) [],
        tags := tagCounts events,
        sentiment_summary := events.foldl (fun d e => bumpCount d ((moodOf e).getD "neutral")) [],
        week_splits := (week_ranges r.1 r.2 events).map
          (fun w => (w.label, (isoformat w.wstart, isoformat w.wend, w.events.length))) } }

/-- `MonthlyArcEngine.synthesize_weekly_arcs`: a falsy `events` argument
(`None` or `[]`) triggers a re-query of the resolved range. -/
def synthesize_weekly_arcs (deps : EngineDeps) (now : PyDate)
    (start_date end_date : Option PyDate) (events : Option (List TimelineEvent)) :
    List WeekArcEntry :=
  let r := resolve_month_range now start_date end_date
  let month_events :=
    pyOptListOr events
      (get_events deps.store none (some (isoformat r.1)) (some (isoformat r.2)) none false)
  (week_ranges r.1 r.2 month_events).map
    (fun w => { week_label := w.label, narrative := deps.construct_week_arc w.events w.wstart w.wend })

/-- The dict `generate_month_narrative` returns. -/
structure MonthNarrative where
  hook : String
  arc : String
  subplots : List String
  turning_points : List String
  climax : String
  resolution : String
deriving Repr, DecidableEq

/-- `MonthlyArcEngine.generate_month_narrative`: a falsy `events` argument
falls back to a fresh default-range `gather_month_events`; the stitcher
returns a string, so `hook` and `arc` both carry it.  A falsy `weekly_arcs`
skips the subplot loop, which equals running it on `[]`. -/
def generate_month_narrative (deps : EngineDeps) (now : PyDate)
    (events : Option (List TimelineEvent)) (weekly_arcs : Option (List WeekArcEntry)) :
    MonthNarrative :=
  let month_events := pyOptListOr events (gather_month_events deps now none none).events
  let stitched := deps.stitch month_events
  let wa := weekly_arcs.getD []
  let subplots := motifsOf wa
  let tps := wa.flatMap (fun w => w.narrative.turning_points)
  let turning_points :=
    if tps.isEmpty then
      ((month_events.take 3).filter (fun e => e.title != "")).map (fun e => e.title)
    else tps
  { hook := stitched, arc := stitched, subplots := subplots,
    turning_points := turning_points,
    climax := turning_points.headD "",
    resolution := "Trajectory set for next month." }

/-- The dict `run_monthly_drift_audit` returns. -/
structure DriftReport where
  issues : List String
  severity : String
  notes : String
deriving Repr, DecidableEq

/-- `MonthlyArcEngine.run_monthly_drift_audit`: a falsy `events` argument
triggers a full re-query of the store with `include_archived=True`. -/
def run_monthly_drift_audit (deps : EngineDeps) (events : Option (List TimelineEvent)) :
    DriftReport :=
  let month_events := pyOptListOr events (get_events deps.store none none none none true)
  let issues := deps.audit month_events
  { issues := issues,
    severity :=
      if 5 < issues.length then "high"
      else if 0 < issues.length then "medium" else "low",
    notes :=
      if issues.isEmpty then "No drift detected."
      else toString issues.length ++ " drift signals detected." }

/-- The payload `construct_month_arc` assembles (`month_data` is the
`"events"` key of the returned dict, which holds the whole
`gather_month_events` result). -/
structure MonthArc where
  time_window : String
  month_data : MonthData
  tasks : TaskSummary
  weekly_arcs : List WeekArcEntry
  narrative : MonthNarrative
  themes : List String
  epics : List EpicRecord
  drift : DriftReport
deriving Repr

/-- `MonthlyArcEngine.construct_month_arc`. -/
def construct_month_arc (deps : EngineDeps) (now : PyDate)
    (start_date end_date : Option PyDate) : MonthArc :=
  let month_data := gather_month_events deps now start_date end_date
  let events := month_data.events
  let weekly_arcs := synthesize_weekly_arcs deps now start_date end_date (some events)
  let narrative := generate_month_narrative deps now (some events) (some weekly_arcs)
  let themes := infer_monthly_themes events weekly_arcs
  let epics := detect_epic_progression events
  let drift := run_monthly_drift_audit deps (some events)
  let tasks := summarize_month_tasks deps.task_engine
  let r := resolve_month_range now start_date end_date
  { time_window := isoformat r.1 ++ " to " ++ isoformat r.2,
    month_data := month_data, tasks := tasks, weekly_arcs := weekly_arcs,
    narrative := narrative, themes := themes, epics := epics, drift := drift }

/-- Sample event used by concrete engine witnesses: an ancient record far
outside any 2024 month. -/
def evOld : TimelineEvent :=
  { id := "x1", date := "1999-05-05", title := "Old memory", type := "note" }

/-- Sample collaborator bundle used by concrete engine witnesses: the
store holds only `evOld`; the stitcher and auditor report the event count
and ids of whatever slice they are handed. -/
def depsSample : EngineDeps :=
  { store := [(1999, [evOld])],
    construct_week_arc := fun evs _ _ =>
      { hook := "week hook", arc := toString evs.length ++ " events", turning_points := [] },
    stitch := fun evs => "stitched-" ++ toString evs.length,
    audit := fun evs => evs.map (fun e => e.id),
    task_engine := {} }

/-- Sample monthly summary used by the C7 witness: the collaborator
supplies an explicit `None` efficiency, forcing the recomputation. -/
def trEx : TaskSummaryResult :=
  { completed := some ["a", "b"], overdue := some ["c"], efficiency_score := some none }

/-- Sample task collaborator used by the C7 witness. -/
def tEx : TaskEngine := { summarize_month := some trEx }

/-- Sample event with two tags mapping to the same epic, used by the C8
theorem and witness. -/
def evRob : TimelineEvent :=
  { id := "r1", date := "2024-06-12", title := "Drivetrain v2", type := "robotics",
    tags := ["robotics", "omega1"] }

/-- The epic record `detect_epic_progression [evRob]` produces, used by the
C8 witness. -/
def recRob : EpicRecord :=
  { epic := "Robotics: Omega-1", progress := "2 updates recorded.",
    milestones := ["Drivetrain v2", "Drivetrain v2"] }

/-! ## Theorems about the date model -/

theorem dateOk_mk (y m d : Nat) : dateOk ⟨y, m, d⟩ ↔
    (1 ≤ y ∧ 1 ≤ m ∧ m ≤ 12 ∧ 1 ≤ d ∧ d ≤ daysInMonth y m) := Iff.rfl

theorem dateLt_iff (a b : PyDate) : dateLt a b = true ↔
    (a.year < b.year
      ∨ (a.year = b.year ∧ (a.month < b.month ∨ (a.month = b.month ∧ a.day < b.day)))) := by
  simp [dateLt, Nat.blt_eq, Nat.beq_eq_true_eq]

theorem dateLe_iff (a b : PyDate) : dateLe a b = true ↔
    (a.year < b.year
      ∨ (a.year = b.year ∧ (a.month < b.month ∨ (a.month = b.month ∧ a.day ≤ b.day)))) := by
  obtain ⟨y1, m1, d1⟩ := a
  obtain ⟨y2, m2, d2⟩ := b
  rw [dateLe, Bool.or_eq_true, dateLt_iff, beq_iff_eq, PyDate.mk.injEq]
  dsimp only
  omega

theorem daysInMonth_le (y m : Nat) : daysInMonth y m ≤ 31 := by
  unfold daysInMonth
  split <;> (try split) <;> omega

theorem daysInMonth_pos (y : Nat) {m : Nat} (h1 : 1 ≤ m) (h2 : m ≤ 12) :
    28 ≤ daysInMonth y m := by
  unfold daysInMonth
  split <;> (try split) <;> (try simp only [imp_false] at *) <;> omega

theorem dateLe_refl (a : PyDate) : dateLe a a = true := by
  rw [dateLe_iff]
  omega

theorem dateLt_imp_le {a b : PyDate} (h : dateLt a b = true) : dateLe a b = true := by
  rw [dateLe_iff]
  rw [dateLt_iff] at h
  omega

theorem dateLe_trans {a b c : PyDate} (h1 : dateLe a b = true) (h2 : dateLe b c = true) :
    dateLe a c = true := by
  rw [dateLe_iff] at h1 h2 ⊢
  omega

theorem dateLe_lt_trans {a b c : PyDate} (h1 : dateLe a b = true) (h2 : dateLt b c = true) :
    dateLt a c = true := by
  rw [dateLe_iff] at h1
  rw [dateLt_iff] at h2 ⊢
  omega

theorem dateLt_le_trans {a b c : PyDate} (h1 : dateLt a b = true) (h2 : dateLe b c = true) :
    dateLt a c = true := by
  rw [dateLt_iff] at h1 ⊢
  rw [dateLe_iff] at h2
  omega

theorem dateLe_of_not_lt {a b : PyDate} (h : dateLt b a = false) : dateLe a b = true := by
  have h2 : ¬ (dateLt b a = true) := by rw [h]; exact Bool.false_ne_true
  rw [dateLt_iff] at h2
  rw [dateLe_iff]
  omega

theorem dateLt_of_not_le {a b : PyDate} (h : dateLe a b = false) : dateLt b a = true := by
  have h2 : ¬ (dateLe a b = true) := by rw [h]; exact Bool.false_ne_true
  rw [dateLe_iff] at h2
  rw [dateLt_iff]
  omega

theorem dateLt_irrefl (a : PyDate) : dateLt a a = false := by
  rcases h : dateLt a a with _ | _
  · rfl
  · rw [dateLt_iff] at h
    omega

theorem succDay_ok {d : PyDate} (h : dateOk d) : dateOk (succDay d) := by
  obtain ⟨y, m, dd⟩ := d
  rw [dateOk_mk] at h
  unfold succDay
  dsimp only
  split_ifs with ha hb
  · rw [dateOk_mk]
    refine ⟨h.1, h.2.1, h.2.2.1, by omega, by omega⟩
  · have h28 := daysInMonth_pos y (m := m + 1) (by omega) (by omega)
    rw [dateOk_mk]
    refine ⟨h.1, by omega, by omega, by omega, by omega⟩
  · rw [dateOk_mk]
    refine ⟨by omega, by omega, by omega, by omega, ?_⟩
    simp [daysInMonth]

theorem lt_succDay {d : PyDate} (h : dateOk d) : dateLt d (succDay d) = true := by
  obtain ⟨y, m, dd⟩ := d
  rw [dateOk_mk] at h
  unfold succDay
  dsimp only
  split_ifs with ha hb <;> (rw [dateLt_iff]; dsimp only; omega)

theorem succDay_le_of_lt {a b : PyDate} (ha : dateOk a) (hb : dateOk b)
    (h : dateLt a b = true) : dateLe (succDay a) b = true := by
  obtain ⟨y1, m1, d1⟩ := a
  obtain ⟨y2, m2, d2⟩ := b
  rw [dateOk_mk] at ha hb
  rw [dateLt_iff] at h
  dsimp only at h
  rcases h with h | ⟨hy, h⟩
  · unfold succDay
    dsimp only
    split_ifs <;> (rw [dateLe_iff]; dsimp only; omega)
  · subst hy
    rcases h with h | ⟨hm, h⟩
    · unfold succDay
      dsimp only
      split_ifs <;> (rw [dateLe_iff]; dsimp only; omega)
    · subst hm
      unfold succDay
      dsimp only
      split_ifs <;> (rw [dateLe_iff]; dsimp only; omega)

theorem dateIdx_lt_of_lt {a b : PyDate} (ha : dateOk a) (hb : dateOk b)
    (h : dateLt a b = true) : dateIdx a < dateIdx b := by
  obtain ⟨y1, m1, d1⟩ := a
  obtain ⟨y2, m2, d2⟩ := b
  rw [dateOk_mk] at ha hb
  rw [dateLt_iff] at h
  dsimp only at h
  have hd1 := daysInMonth_le y1 m1
  have hd2 := daysInMonth_le y2 m2
  unfold dateIdx
  dsimp only
  omega

theorem dateIdx_le_of_le {a b : PyDate} (ha : dateOk a) (hb : dateOk b)
    (h : dateLe a b = true) : dateIdx a ≤ dateIdx b := by
  rcases hlt : dateLt a b with _ | _
  · have heq : a = b := by
      obtain ⟨y1, m1, d1⟩ := a
      obtain ⟨y2, m2, d2⟩ := b
      rw [dateLe_iff] at h
      have h2 : ¬ (dateLt ⟨y1, m1, d1⟩ ⟨y2, m2, d2⟩ = true) := by
        rw [hlt]; exact Bool.false_ne_true
      rw [dateLt_iff] at h2
      simp only at h h2
      simp only [PyDate.mk.injEq]
      omega
    rw [heq]
  · exact Nat.le_of_lt (dateIdx_lt_of_lt ha hb hlt)

theorem addDays_ok {d : PyDate} (h : dateOk d) (n : Nat) : dateOk (addDays d n) := by
  induction n with
  | zero => exact h
  | succ n ih => exact succDay_ok ih

theorem dateLe_addDays {d : PyDate} (h : dateOk d) (n : Nat) :
    dateLe d (addDays d n) = true := by
  induction n with
  | zero => exact dateLe_refl d
  | succ n ih =>
    exact dateLe_trans ih (dateLt_imp_le (lt_succDay (addDays_ok h n)))

theorem minDate_ok {a b : PyDate} (ha : dateOk a) (hb : dateOk b) :
    dateOk (minDate a b) := by
  unfold minDate
  split_ifs <;> assumption

theorem minDate_le_left (a b : PyDate) : dateLe (minDate a b) a = true := by
  unfold minDate
  rcases h : dateLt b a with _ | _
  · simp only [Bool.false_eq_true, if_false]
    exact dateLe_refl a
  · simp only [if_true]
    exact dateLt_imp_le h

theorem minDate_le_right (a b : PyDate) : dateLe (minDate a b) b = true := by
  unfold minDate
  rcases h : dateLt b a with _ | _
  · simp only [Bool.false_eq_true, if_false]
    exact dateLe_of_not_lt h
  · simp only [if_true]
    exact dateLe_refl b

theorem dateLe_minDate {c a b : PyDate} (h1 : dateLe c a = true) (h2 : dateLe c b = true) :
    dateLe c (minDate a b) = true := by
  unfold minDate
  split_ifs <;> assumption

theorem predDay_first_of_next_month (y m : Nat) (h1 : 1 ≤ y) (h2 : 1 ≤ m) (h3 : m ≤ 12) :
    predDay (if m = 12 then (⟨y + 1, 1, 1⟩ : PyDate) else ⟨y, m + 1, 1⟩)
      = ⟨y, m, daysInMonth y m⟩ := by
  by_cases hm : m = 12
  · subst hm
    simp [predDay, daysInMonth]
  · rw [if_neg hm]
    unfold predDay
    dsimp only
    rw [if_neg (by omega), if_pos (by omega)]
    simp only [PyDate.mk.injEq, Nat.add_sub_cancel]

/-- C6: `_resolve_month_range` with a fixed reference "now" (the function is
pure given `now`, which the embedding makes an explicit argument).  Both
bounds omitted: the first through the last day of the current calendar month
(the last day computed by stepping to the first of the next month — with
December rolling over to January — and subtracting one day, which equals
`daysInMonth`).  Exactly one bound given: the other is the 30-day span from
it (for an end-only call, under the always-true-in-Python side condition
that stepping back 30 days does not move forward).  Both given with
`start > end`: swapped; otherwise returned as-is. -/
theorem digitChar_lt : ∀ x, x < 10 → ∀ y, y < 10 → x < y → digitChar x < digitChar y := by
  decide

theorem strLtList_append_same (l r1 r2 : List Char) :
    strLtList (l ++ r1) (l ++ r2) = strLtList r1 r2 := by
  induction l with
  | nil => rfl
  | cons c cs ih =>
    simp only [List.cons_append, strLtList]
    rw [if_neg (lt_irrefl c), if_neg (lt_irrefl c)]
    exact ih

theorem strLtList_append_lt {l1 l2 : List Char} (r1 r2 : List Char)
    (hlen : l1.length = l2.length) (h : strLtList l1 l2 = true) :
    strLtList (l1 ++ r1) (l2 ++ r2) = true := by
  induction l1 generalizing l2 with
  | nil =>
    cases l2 with
    | nil => exact absurd h (by rw [strLtList]; exact Bool.false_ne_true)
    | cons b bs => exact absurd hlen (by simp)
  | cons a as ih =>
    cases l2 with
    | nil => exact absurd hlen (by simp)
    | cons b bs =>
      simp only [List.cons_append, strLtList] at h ⊢
      by_cases hab : a < b
      · rw [if_pos hab]
      · rw [if_neg hab] at h ⊢
        by_cases hba : b < a
        · rw [if_pos hba] at h
          exact absurd h Bool.false_ne_true
        · rw [if_neg hba] at h ⊢
          exact ih (by simpa using hlen) h

theorem pad2_lt {a b : Nat} (h : a < b) (hb : b ≤ 99) :
    strLtList (pad2 a) (pad2 b) = true := by
  unfold pad2
  have ha10 : a / 10 % 10 = a / 10 := by omega
  have hb10 : b / 10 % 10 = b / 10 := by omega
  rw [ha10, hb10]
  by_cases h1 : a / 10 < b / 10
  · simp only [strLtList]
    rw [if_pos (digitChar_lt (a / 10) (by omega) (b / 10) (by omega) h1)]
  · have h2 : a / 10 = b / 10 := by omega
    rw [h2]
    simp only [strLtList]
    rw [if_neg (lt_irrefl _), if_neg (lt_irrefl _)]
    rw [if_pos (digitChar_lt (a % 10) (by omega) (b % 10) (by omega) (by omega))]

theorem pad4_lt {a b : Nat} (h : a < b) (hb : b ≤ 9999) :
    strLtList (pad4 a) (pad4 b) = true := by
  unfold pad4
  by_cases h1 : a / 100 < b / 100
  · exact strLtList_append_lt _ _ rfl (pad2_lt h1 (by omega))
  · have h2 : a / 100 = b / 100 := by omega
    rw [h2, strLtList_append_same]
    exact pad2_lt (by omega) (by omega)

theorem iso_lt {a b : PyDate} (ha : dateOk a) (hb : dateOk b)
    (hya : a.year ≤ 9999) (hyb : b.year ≤ 9999) (h : dateLt a b = true) :
    strLt (isoformat a) (isoformat b) = true := by
  obtain ⟨y1, m1, d1⟩ := a
  obtain ⟨y2, m2, d2⟩ := b
  rw [dateOk_mk] at ha hb
  rw [dateLt_iff] at h
  dsimp only at h hya hyb
  show strLtList (pad4 y1 ++ '-' :: (pad2 m1 ++ '-' :: pad2 d1))
    (pad4 y2 ++ '-' :: (pad2 m2 ++ '-' :: pad2 d2)) = true
  rcases h with h | ⟨hy, h⟩
  · exact strLtList_append_lt _ _ rfl (pad4_lt h (by omega))
  · subst hy
    rw [show pad4 y1 ++ '-' :: (pad2 m1 ++ '-' :: pad2 d1)
        = (pad4 y1 ++ ['-']) ++ (pad2 m1 ++ '-' :: pad2 d1) by simp,
      show pad4 y1 ++ '-' :: (pad2 m2 ++ '-' :: pad2 d2)
        = (pad4 y1 ++ ['-']) ++ (pad2 m2 ++ '-' :: pad2 d2) by simp,
      strLtList_append_same]
    rcases h with h | ⟨hm, h⟩
    · exact strLtList_append_lt _ _ rfl (pad2_lt h (by omega))
    · subst hm
      rw [show pad2 m1 ++ '-' :: pad2 d1 = (pad2 m1 ++ ['-']) ++ pad2 d1 by simp,
        show pad2 m1 ++ '-' :: pad2 d2 = (pad2 m1 ++ ['-']) ++ pad2 d2 by simp,
        strLtList_append_same]
      have h31 := daysInMonth_le y1 m1
      exact pad2_lt h (by omega)

theorem strLtList_iff (as bs : List Char) : strLtList as bs = true ↔ as < bs := by
  induction as generalizing bs with
  | nil =>
    cases bs with
    | nil => simp only [strLtList, Bool.false_eq_true, false_iff]; exact fun h => nomatch h
    | cons b bs => simp only [strLtList, true_iff]; exact List.Lex.nil
  | cons a as ih =>
    cases bs with
    | nil => simp only [strLtList, Bool.false_eq_true, false_iff]; exact fun h => nomatch h
    | cons b bs =>
      simp only [strLtList]
      by_cases h1 : a < b
      · simp only [if_pos h1, true_iff]
        exact List.Lex.rel h1
      · by_cases h2 : b < a
        · simp only [if_neg h1, if_pos h2, Bool.false_eq_true, false_iff]
          intro h
          cases h with
          | cons h' => exact absurd h2 (lt_irrefl a)
          | rel h' => exact h1 h'
        · have hab : a = b := le_antisymm (not_lt.mp h2) (not_lt.mp h1)
          subst hab
          simp only [if_neg h1, if_neg h2, ih]
          constructor
          · exact fun h => List.Lex.cons h
          · intro h
            cases h with
            | cons h' => exact h'
            | rel h' => exact absurd h' h1

theorem strLt_iff (s t : String) : strLt s t = true ↔ s < t := by
  rw [String.lt_iff_toList_lt]
  exact strLtList_iff s.toList t.toList

theorem strLe_iff (s t : String) : strLe s t = true ↔ s ≤ t := by
  unfold strLe
  rw [Bool.not_eq_true']
  rw [← Bool.not_eq_true (strLt t s), strLt_iff]
  exact not_lt

theorem strLe_strLt_absurd {a b : String} (h1 : strLe a b = true) (h2 : strLt b a = true) :
    False := by
  rw [strLe_iff] at h1
  rw [strLt_iff] at h2
  exact absurd h2 (not_lt.mpr h1)

theorem iso_year_le {a b : PyDate} (h : dateLe a b = true) : a.year ≤ b.year := by
  rw [dateLe_iff] at h
  omega

theorem date_eq_of_le_of_not_lt {a b : PyDate} (h1 : dateLe a b = true)
    (h2 : dateLt a b = false) : a = b := by
  obtain ⟨y1, m1, d1⟩ := a
  obtain ⟨y2, m2, d2⟩ := b
  rw [dateLe_iff] at h1
  have h2' : ¬ (dateLt ⟨y1, m1, d1⟩ ⟨y2, m2, d2⟩ = true) := by
    rw [h2]; exact Bool.false_ne_true
  rw [dateLt_iff] at h2'
  dsimp only at h1 h2'
  simp only [PyDate.mk.injEq]
  omega

theorem inWeek_eq (c w : PyDate) (e : TimelineEvent) :
    inWeek c w e = (strLe (isoformat c) e.date && strLe e.date (isoformat w)) := rfl

attribute [irreducible] addDays succDay predDay subDays minDate daysInMonth isLeapYear
attribute [irreducible] dateLt dateLe dateIdx dateOk
attribute [irreducible] isoformat pad4 pad2 digitChar strLt strLe strLtList inWeek weekLabel

theorem mkWindow_wstart (events : List TimelineEvent) (stop cursor : PyDate) (idx : Nat) :
    (mkWindow events stop cursor idx).wstart = cursor := by
  unfold mkWindow
  rfl

theorem mkWindow_wend (events : List TimelineEvent) (stop cursor : PyDate) (idx : Nat) :
    (mkWindow events stop cursor idx).wend = minDate (addDays cursor 6) stop := by
  unfold mkWindow
  rfl

theorem mkWindow_label (events : List TimelineEvent) (stop cursor : PyDate) (idx : Nat) :
    (mkWindow events stop cursor idx).label
      = weekLabel idx cursor (mkWindow events stop cursor idx).wend := by
  unfold mkWindow
  rfl

theorem mkWindow_events (events : List TimelineEvent) (stop cursor : PyDate) (idx : Nat) :
    (mkWindow events stop cursor idx).events
      = events.filter (inWeek cursor (mkWindow events stop cursor idx).wend) := by
  unfold mkWindow
  rfl

theorem chain_cons_fields {events : List TimelineEvent} {stop cursor : PyDate} {idx : Nat}
    {w : WeekWindow} {rest : List WeekWindow}
    (h : WindowsChain events stop cursor idx (w :: rest)) :
    dateLe cursor stop = true
    ∧ w.wstart = cursor
    ∧ w.wend = minDate (addDays cursor 6) stop
    ∧ w.label = weekLabel idx cursor w.wend
    ∧ w.events = events.filter (inWeek cursor w.wend)
    ∧ WindowsChain events stop (succDay w.wend) (idx + 1) rest := by
  obtain ⟨h1, h2, h3⟩ := h
  subst h2
  exact ⟨h1, mkWindow_wstart events stop cursor idx, mkWindow_wend events stop cursor idx,
    mkWindow_label events stop cursor idx, mkWindow_events events stop cursor idx, h3⟩

theorem weekRangesAux_chain (events : List TimelineEvent) (stop : PyDate)
    (hstop : dateOk stop) (fuel : Nat) :
    ∀ cursor idx, dateOk cursor → dateIdx stop + 1 - dateIdx cursor ≤ fuel →
      WindowsChain events stop cursor idx (weekRangesAux events stop fuel cursor idx) := by
  induction fuel with
  | zero =>
    intro cursor idx hok hfuel
    show WindowsChain events stop cursor idx []
    show dateLe cursor stop = false
    rcases hle : dateLe cursor stop with _ | _
    · rfl
    · have := dateIdx_le_of_le hok hstop hle
      omega
  | succ fuel ih =>
    intro cursor idx hok hfuel
    rcases hle : dateLe cursor stop with _ | _
    · rw [weekRangesAux, hle]
      exact hle
    · rw [weekRangesAux, hle]
      have hwend_ok : dateOk ((mkWindow events stop cursor idx).wend) := by
        rw [mkWindow_wend]
        exact minDate_ok (addDays_ok hok 6) hstop
      have h1 : dateLe cursor ((mkWindow events stop cursor idx).wend) = true := by
        rw [mkWindow_wend]
        exact dateLe_minDate (dateLe_addDays hok 6) hle
      have h3 : dateLt cursor (succDay ((mkWindow events stop cursor idx).wend)) = true :=
        dateLe_lt_trans h1 (lt_succDay hwend_ok)
      have h4 : dateIdx cursor < dateIdx (succDay ((mkWindow events stop cursor idx).wend)) :=
        dateIdx_lt_of_lt hok (succDay_ok hwend_ok) h3
      refine ⟨hle, rfl, ?_⟩
      exact ih (succDay ((mkWindow events stop cursor idx).wend)) (idx + 1)
        (succDay_ok hwend_ok) (by omega)

theorem chain_windows (events : List TimelineEvent) (stop : PyDate) (hstop : dateOk stop) :
    ∀ (ws : List WeekWindow) (cursor : PyDate) (idx : Nat),
      WindowsChain events stop cursor idx ws → dateOk cursor →
      ∀ w ∈ ws, dateLe cursor w.wstart = true ∧ dateOk w.wstart ∧ dateOk w.wend
        ∧ dateLe w.wstart w.wend = true ∧ dateLe w.wend stop = true
        ∧ w.wend = minDate (addDays w.wstart 6) stop
        ∧ w.events = events.filter (inWeek w.wstart w.wend) := by
  intro ws
  induction ws with
  | nil => intro cursor idx _ _ w hw; exact absurd hw (List.not_mem_nil w)
  | cons w0 rest ih =>
    intro cursor idx hchain hok w hw
    obtain ⟨hle, hst, hend, hlab, hev, hrest⟩ := chain_cons_fields hchain
    have hwend_ok : dateOk w0.wend := by
      rw [hend]; exact minDate_ok (addDays_ok hok 6) hstop
    rcases List.mem_cons.mp hw with h | h
    · subst h
      refine ⟨by rw [hst]; exact dateLe_refl cursor, by rw [hst]; exact hok, hwend_ok, ?_, ?_, ?_, ?_⟩
      · rw [hst, hend]
        exact dateLe_minDate (dateLe_addDays hok 6) hle
      · rw [hend]
        exact minDate_le_right _ _
      · rw [hst]
        exact hend
      · rw [hst]
        exact hev
    · have hrec := ih (succDay w0.wend) (idx + 1) hrest (succDay_ok hwend_ok) w h
      have hcw : dateLe cursor w.wstart = true := by
        refine dateLe_trans ?_ hrec.1
        refine dateLe_trans ?_ (dateLt_imp_le (lt_succDay hwend_ok))
        rw [hend]
        exact dateLe_minDate (dateLe_addDays hok 6) hle
      exact ⟨hcw, hrec.2⟩

theorem chain_positional (events : List TimelineEvent) (stop : PyDate) (hstop : dateOk stop) :
    ∀ (ws : List WeekWindow) (cursor : PyDate) (idx : Nat),
      WindowsChain events stop cursor idx ws → dateOk cursor →
      ∀ i (h : i < ws.length),
        ((ws.get ⟨i, h⟩).label
            = weekLabel (idx + i) (ws.get ⟨i, h⟩).wstart (ws.get ⟨i, h⟩).wend)
        ∧ (i = 0 → (ws.get ⟨i, h⟩).wstart = cursor)
        ∧ (∀ h2 : i + 1 < ws.length,
            (ws.get ⟨i + 1, h2⟩).wstart = succDay (ws.get ⟨i, h⟩).wend)
        ∧ (i + 1 < ws.length → (ws.get ⟨i, h⟩).wend = addDays (ws.get ⟨i, h⟩).wstart 6)
        ∧ (i + 1 = ws.length → (ws.get ⟨i, h⟩).wend = stop) := by
  intro ws
  induction ws with
  | nil => intro cursor idx _ _ i h; exact absurd h (by simp)
  | cons w0 rest ih =>
    intro cursor idx hchain hok i h
    obtain ⟨hle, hst, hend, hlab, hev, hrest⟩ := chain_cons_fields hchain
    have hwend_ok : dateOk w0.wend := by
      rw [hend]; exact minDate_ok (addDays_ok hok 6) hstop
    cases i with
    | zero =>
      refine ⟨by rw [Nat.add_zero]; subst hst; exact hlab, fun _ => hst, ?_, ?_, ?_⟩
      · intro h2
        have h2' : 0 < rest.length := by simpa using h2
        obtain ⟨r0, rrest, hr⟩ : ∃ r0 rrest, rest = r0 :: rrest := by
          cases rest with
          | nil => exact absurd h2' (by simp)
          | cons a b => exact ⟨a, b, rfl⟩
        subst hr
        exact (chain_cons_fields hrest).2.1
      · intro h2
        have h2' : 0 < rest.length := by simpa using h2
        obtain ⟨r0, rrest, hr⟩ : ∃ r0 rrest, rest = r0 :: rrest := by
          cases rest with
          | nil => exact absurd h2' (by simp)
          | cons a b => exact ⟨a, b, rfl⟩
        subst hr
        have hle2 := (chain_cons_fields hrest).1
        show w0.wend = addDays w0.wstart 6
        rcases Bool.eq_false_or_eq_true (dateLt stop (addDays cursor 6)) with hstoplt | hstoplt
        swap
        · rw [hend, hst]
          unfold minDate
          rw [hstoplt]
          rfl
        · exfalso
          have hwend_eq : w0.wend = stop := by
            rw [hend]
            unfold minDate
            rw [hstoplt]
            rfl
          rw [hwend_eq] at hle2
          have hidx := dateIdx_le_of_le (succDay_ok hstop) hstop hle2
          have hlt2 := dateIdx_lt_of_lt hstop (succDay_ok hstop) (lt_succDay hstop)
          omega
      · intro h2
        have hnil : rest = [] := by
          cases rest with
          | nil => rfl
          | cons a b => exact absurd h2 (by simp)
        subst hnil
        have hle2 : dateLe (succDay w0.wend) stop = false := hrest
        rcases hlt : dateLt w0.wend stop with _ | _
        · have hwle : dateLe w0.wend stop = true := by
            rw [hend]; exact minDate_le_right _ _
          exact date_eq_of_le_of_not_lt hwle hlt
        · exact absurd (succDay_le_of_lt hwend_ok hstop hlt)
            (by rw [hle2]; exact Bool.false_ne_true)
    | succ i =>
      have h' : i < rest.length := by simpa using h
      have hrec := ih (succDay w0.wend) (idx + 1) hrest (succDay_ok hwend_ok) i h'
      refine ⟨?_, ?_, ?_, ?_, ?_⟩
      · show (rest.get ⟨i, h'⟩).label = weekLabel (idx + (i + 1)) _ _
        rw [show idx + (i + 1) = (idx + 1) + i by omega]
        exact hrec.1
      · intro hcontra
        exact absurd hcontra (by omega)
      · intro h2
        have h2' : i + 1 < rest.length := by simpa using h2
        exact hrec.2.2.1 h2'
      · intro h2
        exact hrec.2.2.2.1 (by simpa using h2)
      · intro h2
        exact hrec.2.2.2.2 (by simpa using h2)

theorem chain_coverage (events : List TimelineEvent) (stop : PyDate) (hstop : dateOk stop) :
    ∀ (ws : List WeekWindow) (cursor : PyDate) (idx : Nat),
      WindowsChain events stop cursor idx ws → dateOk cursor →
      ∀ d, dateOk d → dateLe cursor d = true → dateLe d stop = true →
        ∃ w ∈ ws, dateLe w.wstart d = true ∧ dateLe d w.wend = true := by
  intro ws
  induction ws with
  | nil =>
    intro cursor idx hchain hok d hd h1 h2
    have hcs : dateLe cursor stop = true := dateLe_trans h1 h2
    have hfalse : dateLe cursor stop = false := hchain
    rw [hfalse] at hcs
    exact absurd hcs Bool.false_ne_true
  | cons w0 rest ih =>
    intro cursor idx hchain hok d hd h1 h2
    obtain ⟨hle, hst, hend, hlab, hev, hrest⟩ := chain_cons_fields hchain
    have hwend_ok : dateOk w0.wend := by
      rw [hend]; exact minDate_ok (addDays_ok hok 6) hstop
    rcases hdle : dateLe d w0.wend with _ | _
    · have hlt : dateLt w0.wend d = true := dateLt_of_not_le hdle
      have hsle : dateLe (succDay w0.wend) d = true := succDay_le_of_lt hwend_ok hd hlt
      obtain ⟨w, hw, hw1, hw2⟩ := ih (succDay w0.wend) (idx + 1) hrest
        (succDay_ok hwend_ok) d hd hsle h2
      exact ⟨w, List.mem_cons_of_mem _ hw, hw1, hw2⟩
    · exact ⟨w0, List.mem_cons_self _ _, by rw [hst]; exact h1, hdle⟩

theorem chain_order (events : List TimelineEvent) (stop : PyDate) (hstop : dateOk stop) :
    ∀ (ws : List WeekWindow) (cursor : PyDate) (idx : Nat),
      WindowsChain events stop cursor idx ws → dateOk cursor →
      ∀ i j (hi : i < ws.length) (hj : j < ws.length), i < j →
        dateLe (succDay ((ws.get ⟨i, hi⟩).wend)) ((ws.get ⟨j, hj⟩).wstart) = true := by
  intro ws
  induction ws with
  | nil => intro cursor idx _ _ i j hi _ _; exact absurd hi (by simp)
  | cons w0 rest ih =>
    intro cursor idx hchain hok i j hi hj hij
    obtain ⟨hle, hst, hend, hlab, hev, hrest⟩ := chain_cons_fields hchain
    have hwend_ok : dateOk w0.wend := by
      rw [hend]; exact minDate_ok (addDays_ok hok 6) hstop
    cases i with
    | zero =>
      obtain ⟨j, rfl⟩ : ∃ j0, j = j0 + 1 := by
        cases j with
        | zero => exact absurd hij (by omega)
        | succ j0 => exact ⟨j0, rfl⟩
      have hj' : j < rest.length := by simpa using hj
      have hmem : rest.get ⟨j, hj'⟩ ∈ rest := List.get_mem rest j hj'
      have hw := chain_windows events stop hstop rest (succDay w0.wend) (idx + 1)
        hrest (succDay_ok hwend_ok) _ hmem
      exact hw.1
    | succ i =>
      obtain ⟨j, rfl⟩ : ∃ j0, j = j0 + 1 := by
        cases j with
        | zero => exact absurd hij (by omega)
        | succ j0 => exact ⟨j0, rfl⟩
      have hi' : i < rest.length := by simpa using hi
      have hj' : j < rest.length := by simpa using hj
      exact ih (succDay w0.wend) (idx + 1) hrest (succDay_ok hwend_ok) i j hi' hj' (by omega)

theorem chain_disjoint_events (events : List TimelineEvent) (stop : PyDate)
    (hstop : dateOk stop) (hy : stop.year ≤ 9999) :
    ∀ (ws : List WeekWindow) (cursor : PyDate) (idx : Nat),
      WindowsChain events stop cursor idx ws → dateOk cursor →
      ∀ i j (hi : i < ws.length) (hj : j < ws.length), i < j →
        ∀ ev, ev ∈ (ws.get ⟨i, hi⟩).events → ev ∈ (ws.get ⟨j, hj⟩).events → False := by
  intro ws cursor idx hchain hok i j hi hj hij ev hevi hevj
  have hwi := chain_windows events stop hstop ws cursor idx hchain hok _ (List.get_mem ws i hi)
  have hwj := chain_windows events stop hstop ws cursor idx hchain hok _ (List.get_mem ws j hj)
  have horder := chain_order events stop hstop ws cursor idx hchain hok i j hi hj hij
  obtain ⟨_, hoksti, hokendi, _, hendstopi, _, hevEqi⟩ := hwi
  obtain ⟨_, hokstj, hokendj, hstj_le, hendstopj, _, hevEqj⟩ := hwj
  rw [hevEqi] at hevi
  rw [hevEqj] at hevj
  have h1 := (List.mem_filter.mp hevi).2
  have h2 := (List.mem_filter.mp hevj).2
  rw [inWeek_eq, Bool.and_eq_true] at h1 h2
  have hlt : dateLt ((ws.get ⟨i, hi⟩).wend) ((ws.get ⟨j, hj⟩).wstart) = true :=
    dateLt_le_trans (lt_succDay hokendi) horder
  have hyi : ((ws.get ⟨i, hi⟩).wend).year ≤ 9999 := le_trans (iso_year_le hendstopi) hy
  have hyj : ((ws.get ⟨j, hj⟩).wstart).year ≤ 9999 :=
    le_trans (iso_year_le (dateLe_trans hstj_le hendstopj)) hy
  have hisolt := iso_lt hokendi hokstj hyi hyj hlt
  obtain ⟨h1a, h1b⟩ := h1
  obtain ⟨h2a, h2b⟩ := h2
  rw [strLe_iff] at h1b h2a
  rw [strLt_iff] at hisolt
  have hcirc : isoformat ((ws.get ⟨j, hj⟩).wstart) ≤ isoformat ((ws.get ⟨i, hi⟩).wend) :=
    le_trans h2a h1b
  exact absurd hisolt (not_lt.mpr hcirc)

/-- C4: week partition coverage.  For valid dates `start ≤ stop` (with the
Python-imposed year cap), `_week_ranges` produces a non-empty window list
that is sequentially labeled from "Week 1", starts at `start`, is contiguous
(each window resumes one day after the previous window's end), ends exactly
at `stop`, spans at most 7 days per window with every non-final window
exactly 7 days, jointly covers every valid date of `[start, stop]`, carries
exactly the string-filtered events of each window, and assigns no event to
more than one window. -/
theorem claim_C4_week_partition (start stop : PyDate) (events : List TimelineEvent)
    (hs : dateOk start) (ht : dateOk stop) (hse : dateLe start stop = true)
    (hy : stop.year ≤ 9999) :
    week_ranges start stop events ≠ []
    ∧ (∀ h0 : 0 < (week_ranges start stop events).length,
        ((week_ranges start stop events).get ⟨0, h0⟩).wstart = start)
    ∧ (∀ i (h : i < (week_ranges start stop events).length),
        ((week_ranges start stop events).get ⟨i, h⟩).label
          = weekLabel (1 + i) ((week_ranges start stop events).get ⟨i, h⟩).wstart
              ((week_ranges start stop events).get ⟨i, h⟩).wend)
    ∧ (∀ i (h2 : i + 1 < (week_ranges start stop events).length),
        ((week_ranges start stop events).get ⟨i + 1, h2⟩).wstart
          = succDay (((week_ranges start stop events).get ⟨i, Nat.lt_of_succ_lt h2⟩).wend))
    ∧ (∀ w ∈ week_ranges start stop events,
        dateLe w.wstart w.wend = true ∧ dateLe w.wend stop = true
          ∧ dateLe w.wend (addDays w.wstart 6) = true
          ∧ w.events = events.filter (inWeek w.wstart w.wend))
    ∧ (∀ i (h2 : i + 1 < (week_ranges start stop events).length),
        ((week_ranges start stop events).get ⟨i, Nat.lt_of_succ_lt h2⟩).wend
          = addDays (((week_ranges start stop events).get ⟨i, Nat.lt_of_succ_lt h2⟩).wstart) 6)
    ∧ (∀ i (h : i < (week_ranges start stop events).length),
        i + 1 = (week_ranges start stop events).length →
          ((week_ranges start stop events).get ⟨i, h⟩).wend = stop)
    ∧ (∀ d : PyDate, dateOk d → dateLe start d = true → dateLe d stop = true →
        ∃ w ∈ week_ranges start stop events,
          dateLe w.wstart d = true ∧ dateLe d w.wend = true)
    ∧ (∀ i j (hi : i < (week_ranges start stop events).length)
          (hj : j < (week_ranges start stop events).length), i ≠ j →
        ∀ ev, ev ∈ ((week_ranges start stop events).get ⟨i, hi⟩).events →
          ev ∉ ((week_ranges start stop events).get ⟨j, hj⟩).events) := by
  have hchain : WindowsChain events stop start 1 (week_ranges start stop events) := by
    unfold week_ranges
    exact weekRangesAux_chain events stop ht _ start 1 hs (by omega)
  have hpos := chain_positional events stop ht (week_ranges start stop events) start 1 hchain hs
  have hwin := chain_windows events stop ht (week_ranges start stop events) start 1 hchain hs
  refine ⟨?_, ?_, ?_, ?_, ?_, ?_, ?_, ?_, ?_⟩
  · intro hnil
    have hfalse : dateLe start stop = false := by
      rw [hnil] at hchain
      exact hchain
    rw [hfalse] at hse
    exact absurd hse Bool.false_ne_true
  · intro h0
    exact (hpos 0 h0).2.1 rfl
  · intro i h
    have := (hpos i h).1
    rw [Nat.add_comm 1 i] at this
    rw [Nat.add_comm 1 i]
    exact this
  · intro i h2
    exact (hpos i (Nat.lt_of_succ_lt h2)).2.2.1 h2
  · intro w hw
    obtain ⟨_, _, _, h4, h5, h6, h7⟩ := hwin w hw
    refine ⟨h4, h5, ?_, h7⟩
    rw [h6]
    exact minDate_le_left _ _
  · intro i h2
    exact (hpos i (Nat.lt_of_succ_lt h2)).2.2.2.1 h2
  · intro i h hlast
    exact (hpos i h).2.2.2.2 hlast
  · intro d hd h1 h2
    exact chain_coverage events stop ht (week_ranges start stop events) start 1 hchain hs d hd h1 h2
  · intro i j hi hj hij ev hevi hevj
    rcases Nat.lt_or_ge i j with hlt | hge
    · exact chain_disjoint_events events stop ht hy (week_ranges start stop events)
        start 1 hchain hs i j hi hj hlt ev hevi hevj
    · have hlt : j < i := by omega
      exact chain_disjoint_events events stop ht hy (week_ranges start stop events)
        start 1 hchain hs j i hj hi hlt ev hevj hevi

set_option allowUnsafeReducibility true in
attribute [semireducible] addDays succDay predDay subDays minDate daysInMonth isLeapYear

set_option allowUnsafeReducibility true in
attribute [semireducible] dateLt dateLe dateIdx dateOk

set_option allowUnsafeReducibility true in
attribute [semireducible] isoformat pad4 pad2 digitChar strLt strLe strLtList inWeek weekLabel

/-- Witness for C4 at a concrete January range: the partition is non-empty
and a mid-month date is covered by some window. -/
theorem claim_C4_witness :
    week_ranges ⟨2024, 1, 1⟩ ⟨2024, 1, 31⟩ [evBjj] ≠ []
    ∧ ∃ w ∈ week_ranges ⟨2024, 1, 1⟩ ⟨2024, 1, 31⟩ [evBjj],
        dateLe w.wstart ⟨2024, 1, 15⟩ = true ∧ dateLe ⟨2024, 1, 15⟩ w.wend = true := by
  have h := claim_C4_week_partition ⟨2024, 1, 1⟩ ⟨2024, 1, 31⟩ [evBjj]
    (by decide) (by decide) (by decide) (by decide)
  exact ⟨h.1, h.2.2.2.2.2.2.2.1 ⟨2024, 1, 15⟩ (by decide) (by decide) (by decide)⟩

theorem resolve_month_range_start_only (now s : PyDate) :
    resolve_month_range now (some s) none
      = (if dateLt (addDays s 30) s then (addDays s 30, s) else (s, addDays s 30)) := rfl

theorem resolve_month_range_end_only (now t : PyDate) :
    resolve_month_range now none (some t)
      = (if dateLt t (subDays t 30) then (t, subDays t 30) else (subDays t 30, t)) := rfl

theorem resolve_month_range_both (now s t : PyDate) :
    resolve_month_range now (some s) (some t)
      = (if dateLt t s then (t, s) else (s, t)) := rfl

theorem claim_C6_resolve_month_range (now : PyDate) (hok : dateOk now) :
    (resolve_month_range now none none
       = (⟨now.year, now.month, 1⟩, ⟨now.year, now.month, daysInMonth now.year now.month⟩))
    ∧ (∀ s : PyDate, dateOk s →
        resolve_month_range now (some s) none = (s, addDays s 30))
    ∧ (∀ t : PyDate, dateLe (subDays t 30) t = true →
        resolve_month_range now none (some t) = (subDays t 30, t))
    ∧ (∀ s t : PyDate, dateLt t s = true →
        resolve_month_range now (some s) (some t) = (t, s))
    ∧ (∀ s t : PyDate, dateLt t s = false →
        resolve_month_range now (some s) (some t) = (s, t)) := by
  obtain ⟨y, m, d⟩ := now
  rw [dateOk_mk] at hok
  refine ⟨?_, ?_, ?_, ?_, ?_⟩
  · show (_, predDay (if m = 12 then (⟨y + 1, 1, 1⟩ : PyDate) else ⟨y, m + 1, 1⟩)) = _
    rw [predDay_first_of_next_month y m hok.1 hok.2.1 hok.2.2.1]
  · intro s hs
    have hlt : dateLt (addDays s 30) s = false := by
      rcases hl : dateLt (addDays s 30) s with _ | _
      · rfl
      · have := dateLe_lt_trans (dateLe_addDays hs 30) hl
        rw [dateLt_irrefl] at this
        exact absurd this Bool.false_ne_true
    rw [resolve_month_range_start_only, hlt]
    rfl
  · intro t ht
    have hlt : dateLt t (subDays t 30) = false := by
      rcases hl : dateLt t (subDays t 30) with _ | _
      · rfl
      · have := dateLt_le_trans hl ht
        rw [dateLt_irrefl] at this
        exact absurd this Bool.false_ne_true
    rw [resolve_month_range_end_only, hlt]
    rfl
  · intro s t h
    rw [resolve_month_range_both, h]
    rfl
  · intro s t h
    rw [resolve_month_range_both, h]
    rfl

/-- Witness for C6 at a concrete December "now" (exercising the
December-to-January rollover) and concrete bounds. -/
theorem claim_C6_witness :
    resolve_month_range ⟨2024, 12, 15⟩ none none = (⟨2024, 12, 1⟩, ⟨2024, 12, 31⟩)
    ∧ resolve_month_range ⟨2024, 12, 15⟩ (some ⟨2024, 3, 5⟩) none
        = (⟨2024, 3, 5⟩, addDays ⟨2024, 3, 5⟩ 30)
    ∧ resolve_month_range ⟨2024, 12, 15⟩ none (some ⟨2024, 3, 5⟩)
        = (subDays ⟨2024, 3, 5⟩ 30, ⟨2024, 3, 5⟩)
    ∧ resolve_month_range ⟨2024, 12, 15⟩ (some ⟨2024, 5, 1⟩) (some ⟨2024, 4, 1⟩)
        = (⟨2024, 4, 1⟩, ⟨2024, 5, 1⟩) := by
  have h := claim_C6_resolve_month_range ⟨2024, 12, 15⟩ (by decide)
  refine ⟨?_, ?_, ?_, ?_⟩
  · rw [h.1]
    rfl
  · exact h.2.1 ⟨2024, 3, 5⟩ (by decide)
  · exact h.2.2.1 ⟨2024, 3, 5⟩ (by decide)
  · exact h.2.2.2.1 ⟨2024, 5, 1⟩ ⟨2024, 4, 1⟩ (by decide)

/-! ## Theorems about the timeline store -/

theorem pyStr_eq_self {o : Option String} (h : o ≠ some "") : pyStr o = o := by
  cases o with
  | none => rfl
  | some s =>
    cases s with
    | mk data =>
      cases data with
      | nil => exact absurd rfl h
      | cons c cs => rfl

theorem in_range_iff (include_archived : Bool) (tags : List String)
    (start_date end_date : Option String) (e : TimelineEvent)
    (hs : start_date ≠ some "") (he : end_date ≠ some "") :
    in_range include_archived tags start_date end_date e = true ↔
      (include_archived = false → e.archived = false)
      ∧ (tags ≠ [] → ∃ t ∈ tags, t ∈ e.tags)
      ∧ (∀ d, start_date = some d → d ≤ e.date)
      ∧ (∀ d, end_date = some d → e.date ≤ d) := by
  unfold in_range
  rw [pyStr_eq_self hs, pyStr_eq_self he]
  cases start_date <;> cases end_date <;>
    cases include_archived <;> cases ha : e.archived <;>
      simp [ha, List.any_eq_true, List.isEmpty_iff, strLt_iff, not_lt] <;> tauto

theorem allRows_cons (y : Nat) (rows : List TimelineEvent) (rest : Store) :
    allRows ((y, rows) :: rest) = rows ++ allRows rest := rfl

theorem archiveRow_id (event_id : String) (r : TimelineEvent) :
    (archiveRow event_id r).id = r.id := by
  unfold archiveRow; split <;> rfl

theorem archiveRow_idem (event_id : String) (r : TimelineEvent) :
    archiveRow event_id (archiveRow event_id r) = archiveRow event_id r := by
  unfold archiveRow
  by_cases h : r.id = event_id <;> simp [h]

theorem archiveRow_of_ne (event_id : String) (r : TimelineEvent) (h : r.id ≠ event_id) :
    archiveRow event_id r = r := by
  unfold archiveRow; simp [h]

theorem filter_map_archiveRow (event_id : String) (rows : List TimelineEvent) :
    (rows.map (archiveRow event_id)).filter (fun r => r.id = event_id)
      = (rows.filter (fun r => r.id = event_id)).map (fun r => { r with archived := true }) := by
  induction rows with
  | nil => rfl
  | cons r rest ih =>
    by_cases h : r.id = event_id
    · simp [List.filter_cons, archiveRow, h, ih]
    · simp [List.filter_cons, archiveRow_of_ne event_id r h, h, ih]

theorem shardMatch_map (event_id : String) (rows : List TimelineEvent) :
    shardMatch (rows.map (archiveRow event_id)) event_id = shardMatch rows event_id := by
  unfold shardMatch
  rw [filter_map_archiveRow, List.getLast?_map, Option.map_map]
  rfl

theorem map_archiveRow_idem (event_id : String) (rows : List TimelineEvent) :
    (rows.map (archiveRow event_id)).map (archiveRow event_id) = rows.map (archiveRow event_id) := by
  rw [List.map_map]
  exact List.map_congr_left (fun r _ => archiveRow_idem event_id r)

theorem shardMatch_isSome_of_mem {rows : List TimelineEvent} {event_id : String}
    {r : TimelineEvent} (hm : r ∈ rows) (hid : r.id = event_id) :
    (shardMatch rows event_id).isSome := by
  have hmem : r ∈ rows.filter (fun r => r.id = event_id) :=
    List.mem_filter.mpr ⟨hm, by simp [hid]⟩
  have hne : rows.filter (fun r => r.id = event_id) ≠ [] := List.ne_nil_of_mem hmem
  obtain ⟨v, hv⟩ := Option.isSome_iff_exists.mp (List.getLast?_isSome.mpr hne)
  unfold shardMatch
  rw [hv]
  rfl

theorem shardMatch_none_of_countP {rows : List TimelineEvent} {event_id : String}
    (hc : rows.countP (fun r => decide (r.id = event_id)) = 0) :
    shardMatch rows event_id = none := by
  unfold shardMatch
  have : rows.filter (fun r => decide (r.id = event_id)) = [] := by
    rw [List.countP_eq_length_filter] at hc
    exact List.eq_nil_of_length_eq_zero hc
  rw [this]
  rfl

theorem shardMatch_archived {rows : List TimelineEvent} {event_id : String}
    {ev : TimelineEvent} (h : shardMatch rows event_id = some ev) : ev.archived = true := by
  unfold shardMatch at h
  rcases Option.map_eq_some'.mp h with ⟨r, _, hr⟩
  rw [← hr]

theorem filter_eq_nil_of_countP_zero {p : TimelineEvent → Bool} {l : List TimelineEvent}
    (h : l.countP p = 0) : l.filter p = [] := by
  rw [List.countP_eq_length_filter] at h
  exact List.eq_nil_of_length_eq_zero h

theorem shard_unique (rows : List TimelineEvent) (event_id : String) (e : TimelineEvent)
    (hc : rows.countP (fun r => decide (r.id = event_id)) = 1)
    (hm : e ∈ rows) (hid : e.id = event_id) :
    shardMatch rows event_id = some { e with archived := true }
    ∧ List.Perm (rows.map (archiveRow event_id))
        ({ e with archived := true } :: rows.erase e) := by
  induction rows with
  | nil => exact absurd hm (List.not_mem_nil e)
  | cons r rest ih =>
    rw [List.countP_cons] at hc
    by_cases hr : r.id = event_id
    · have hrest0 : rest.countP (fun r => decide (r.id = event_id)) = 0 := by
        rw [if_pos (by simp [hr])] at hc
        omega
      have hre : e = r := by
        rcases List.mem_cons.mp hm with h | h
        · exact h
        · exfalso
          have := List.countP_eq_zero.mp hrest0 e h
          simp [hid] at this
      subst hre
      constructor
      · unfold shardMatch
        rw [List.filter_cons_of_pos (by simp [hid]), filter_eq_nil_of_countP_zero hrest0]
        rfl
      · rw [List.map_cons, archiveRow, if_pos hid, List.erase_cons_head]
        have : rest.map (archiveRow event_id) = rest := by
          have := List.map_congr_left (l := rest) (f := archiveRow event_id) (g := id)
            (fun a ha => archiveRow_of_ne event_id a (by
              intro hcontra
              have := List.countP_eq_zero.mp hrest0 a ha
              simp [hcontra] at this))
          rw [this, List.map_id]
        rw [this]
    · have hc' : rest.countP (fun r => decide (r.id = event_id)) = 1 := by
        rw [if_neg (by simp [hr])] at hc
        omega
      have hne : e ≠ r := fun h => hr (h ▸ hid)
      have hmem : e ∈ rest := by
        rcases List.mem_cons.mp hm with h | h
        · exact absurd h hne
        · exact h
      obtain ⟨h1, h2⟩ := ih hc' hmem
      constructor
      · unfold shardMatch at h1 ⊢
        rw [List.filter_cons_of_neg (by simp [hr])]
        exact h1
      · rw [List.map_cons, archiveRow_of_ne _ _ hr,
          List.erase_cons_tail (by simp [Ne.symm hne])]
        exact (h2.cons r).trans (List.Perm.swap { e with archived := true } r (rest.erase e))

theorem archive_event_not_found (s : Store) (event_id : String)
    (h : ∀ r ∈ allRows s, r.id ≠ event_id) : archive_event s event_id = (s, none) := by
  induction s with
  | nil => rfl
  | cons shard rest ih =>
    obtain ⟨y, rows⟩ := shard
    have hsm : shardMatch rows event_id = none := by
      apply shardMatch_none_of_countP
      apply List.countP_eq_zero.mpr
      intro a ha
      simp only [decide_eq_true_eq]
      exact h a (by rw [allRows_cons]; exact List.mem_append_left _ ha)
    have hrest := ih (fun r hr => h r (by rw [allRows_cons]; exact List.mem_append_right _ hr))
    simp only [archive_event, hsm, hrest]

theorem archive_event_unique (s : Store) (event_id : String) (e : TimelineEvent)
    (hc : (allRows s).countP (fun r => decide (r.id = event_id)) = 1)
    (hm : e ∈ allRows s) (hid : e.id = event_id) :
    (archive_event s event_id).2 = some { e with archived := true }
    ∧ List.Perm (allRows (archive_event s event_id).1)
        ({ e with archived := true } :: (allRows s).erase e) := by
  induction s with
  | nil => exact absurd hm (List.not_mem_nil e)
  | cons shard rest ih =>
    obtain ⟨y, rows⟩ := shard
    rw [allRows_cons, List.countP_append] at hc
    rcases Nat.eq_zero_or_pos (rows.countP (fun r => decide (r.id = event_id))) with h0 | hpos
    · have hsm : shardMatch rows event_id = none := shardMatch_none_of_countP h0
      have henot : e ∉ rows := by
        intro hein
        have : 0 < rows.countP (fun r => decide (r.id = event_id)) :=
          List.countP_pos_iff.mpr ⟨e, hein, by simp [hid]⟩
        omega
      have hme : e ∈ allRows rest := by
        rcases List.mem_append.mp (by rw [allRows_cons] at hm; exact hm) with h | h
        · exact absurd h henot
        · exact h
      have hcrest : (allRows rest).countP (fun r => decide (r.id = event_id)) = 1 := by omega
      obtain ⟨h1, h2⟩ := ih hcrest hme
      have hcur : archive_event ((y, rows) :: rest) event_id
          = ((y, rows) :: (archive_event rest event_id).1, (archive_event rest event_id).2) := by
        simp only [archive_event, hsm]
      rw [hcur]
      refine ⟨h1, ?_⟩
      rw [allRows_cons, allRows_cons, List.erase_append_right _ henot]
      exact (List.Perm.append_left rows h2).trans List.perm_middle
    · have hcrows : rows.countP (fun r => decide (r.id = event_id)) = 1 := by omega
      have hcrest0 : (allRows rest).countP (fun r => decide (r.id = event_id)) = 0 := by omega
      have hmem : e ∈ rows := by
        rcases List.mem_append.mp (by rw [allRows_cons] at hm; exact hm) with h | h
        · exact h
        · exfalso
          have := List.countP_eq_zero.mp hcrest0 e h
          simp [hid] at this
      obtain ⟨h1, h2⟩ := shard_unique rows event_id e hcrows hmem hid
      have hcur : archive_event ((y, rows) :: rest) event_id
          = ((y, rows.map (archiveRow event_id)) :: rest,
             some { e with archived := true }) := by
        simp only [archive_event, h1]
      rw [hcur]
      refine ⟨rfl, ?_⟩
      rw [allRows_cons, allRows_cons, List.erase_append_left _ hmem]
      exact h2.append_right (allRows rest)

theorem allRows_addToShards (s : Store) (y : Nat) (e : TimelineEvent) :
    List.Perm (allRows (addToShards s y e)) (e :: allRows s) := by
  induction s with
  | nil => simp [addToShards, allRows]
  | cons shard rest ih =>
    obtain ⟨y', rows⟩ := shard
    unfold addToShards
    by_cases h1 : y = y'
    · simp only [if_pos h1, allRows_cons]
      exact (List.perm_append_singleton e rows).append_right (allRows rest)
    · by_cases h2 : y < y'
      · simp only [if_neg h1, if_pos h2, allRows_cons]
        exact List.Perm.refl _
      · simp only [if_neg h1, if_neg h2, allRows_cons]
        exact (List.Perm.append_left rows ih).trans List.perm_middle

theorem forceCorrection_date (e : TimelineEvent) : (forceCorrection e).date = e.date := by
  unfold forceCorrection; split <;> rfl

theorem forceCorrection_archived (e : TimelineEvent) :
    (forceCorrection e).archived = e.archived := by
  unfold forceCorrection; split <;> rfl

theorem forceCorrection_source_unset {e : TimelineEvent} (h : e.source = "") :
    (forceCorrection e).source = "correction" := by
  unfold forceCorrection
  rw [if_pos h]

theorem forceCorrection_source_set {e : TimelineEvent} (h : e.source ≠ "") :
    forceCorrection e = e := by
  unfold forceCorrection
  rw [if_neg h]

theorem get_events_all_archived (s : Store) :
    get_events s none none none none true = allRows s := by
  unfold get_events candidates
  apply List.filter_eq_self.mpr
  intro a _
  rfl

theorem mem_get_events_active (s : Store) (e : TimelineEvent) :
    e ∈ get_events s none none none none false ↔ e ∈ allRows s ∧ e.archived = false := by
  unfold get_events candidates
  rw [List.mem_filter]
  have : in_range false [] none none e = !e.archived := by
    unfold in_range
    cases e.archived <;> rfl
  rw [Option.getD_none, this, Bool.not_eq_true']

/-- C1: the `correct_event` contract.  If no shard contains the id, the call
returns the not-found sentinel and leaves every shard unchanged.  If the
store holds exactly one record with the id, that record active, and the
corrected event carries a parseable date and is itself active, then the call
returns the stored corrected event (source forced to "correction" exactly
when the caller left it unset), and the resulting rows are — up to shard
placement of the appended correction — the old rows with the original
replaced by its archived copy plus the appended correction: a two-row
lineage.  The archived original is returned by queries only with
`include_archived = true`, while the corrected row is returned by the
default query. -/
theorem claim_C1_correct_event_contract (s : Store) (event_id : String) (ce : TimelineEvent) :
    ((∀ r ∈ allRows s, r.id ≠ event_id) → correct_event s event_id ce = some (s, none))
    ∧ (∀ e : TimelineEvent,
        (allRows s).countP (fun r => decide (r.id = event_id)) = 1 →
        e ∈ allRows s → e.id = event_id → e.archived = false → ce.archived = false →
        (parseYear ce.date).isSome →
        ∃ s', correct_event s event_id ce = some (s', some (forceCorrection ce))
          ∧ List.Perm (allRows s')
              ({ e with archived := true } :: forceCorrection ce :: (allRows s).erase e)
          ∧ (ce.source = "" → (forceCorrection ce).source = "correction")
          ∧ (ce.source ≠ "" → forceCorrection ce = ce)
          ∧ (forceCorrection ce).archived = false
          ∧ { e with archived := true } ∈ get_events s' none none none none true
          ∧ { e with archived := true } ∉ get_events s' none none none none false
          ∧ forceCorrection ce ∈ get_events s' none none none none false) := by
  constructor
  · intro h
    unfold correct_event
    rw [archive_event_not_found s event_id h]
  · intro e hc hm hid harch hcearch hparse
    obtain ⟨h1, h2⟩ := archive_event_unique s event_id e hc hm hid
    obtain ⟨yc, hyc⟩ := Option.isSome_iff_exists.mp hparse
    have hycf : parseYear (forceCorrection ce).date = some yc := by
      rw [forceCorrection_date]; exact hyc
    refine ⟨addToShards (archive_event s event_id).1 yc (forceCorrection ce), ?_, ?_, ?_, ?_, ?_, ?_, ?_, ?_⟩
    · simp only [correct_event, add_event, h1, hycf, Option.map_some']
    · have hperm : List.Perm (allRows (addToShards (archive_event s event_id).1 yc (forceCorrection ce)))
          (forceCorrection ce :: allRows (archive_event s event_id).1) :=
        allRows_addToShards _ yc (forceCorrection ce)
      refine hperm.trans ?_
      refine (h2.cons (forceCorrection ce)).trans ?_
      exact List.Perm.swap { e with archived := true } (forceCorrection ce) _
    · exact fun h => forceCorrection_source_unset h
    · exact fun h => forceCorrection_source_set h
    · rw [forceCorrection_archived]; exact hcearch
    · rw [get_events_all_archived]
      have hperm : List.Perm (allRows (addToShards (archive_event s event_id).1 yc (forceCorrection ce)))
          (forceCorrection ce :: allRows (archive_event s event_id).1) :=
        allRows_addToShards _ yc (forceCorrection ce)
      rw [hperm.mem_iff, (h2.cons (forceCorrection ce)).mem_iff]
      simp
    · rw [mem_get_events_active]
      intro ⟨_, hcontra⟩
      simp at hcontra
    · rw [mem_get_events_active]
      constructor
      · have hperm : List.Perm (allRows (addToShards (archive_event s event_id).1 yc (forceCorrection ce)))
            (forceCorrection ce :: allRows (archive_event s event_id).1) :=
          allRows_addToShards _ yc (forceCorrection ce)
        rw [hperm.mem_iff]
        exact List.mem_cons_self _ _
      · rw [forceCorrection_archived]; exact hcearch

theorem in_range_active (x : TimelineEvent) :
    in_range false [] none none x = !x.archived := by
  unfold in_range
  cases x.archived <;> rfl

theorem count_map_archiveRow (rows : List TimelineEvent) (event_id : String)
    (e : TimelineEvent) (h : e.id ≠ event_id) :
    (rows.map (archiveRow event_id)).count e = rows.count e := by
  induction rows with
  | nil => rfl
  | cons r rest ih =>
    rw [List.map_cons, List.count_cons, List.count_cons, ih]
    congr 1
    by_cases hr : r.id = event_id
    · have h1 : e ≠ archiveRow event_id r := by
        intro hcontra
        apply h
        rw [hcontra, archiveRow_id, hr]
      have h2 : e ≠ r := by
        intro hcontra
        exact h (hcontra ▸ hr)
      rw [if_neg (fun hc => h1 (eq_of_beq hc).symm), if_neg (fun hc => h2 (eq_of_beq hc).symm)]
    · rw [archiveRow_of_ne _ _ hr]

theorem count_archive_state (s : Store) (event_id : String) (e : TimelineEvent)
    (h : e.id ≠ event_id) :
    (allRows (archive_event s event_id).1).count e = (allRows s).count e := by
  induction s with
  | nil => rfl
  | cons shard rest ih =>
    obtain ⟨y, rows⟩ := shard
    cases hsm : shardMatch rows event_id with
    | some ev =>
      have hcur : (archive_event ((y, rows) :: rest) event_id).1
          = (y, rows.map (archiveRow event_id)) :: rest := by
        simp only [archive_event, hsm]
      rw [hcur, allRows_cons, allRows_cons, List.count_append, List.count_append,
        count_map_archiveRow rows event_id e h]
    | none =>
      have hcur : (archive_event ((y, rows) :: rest) event_id).1
          = (y, rows) :: (archive_event rest event_id).1 := by
        simp only [archive_event, hsm]
      rw [hcur, allRows_cons, allRows_cons, List.count_append, List.count_append, ih]

theorem mem_archive_state (s : Store) (event_id : String) (r : TimelineEvent)
    (hr : r ∈ allRows (archive_event s event_id).1) :
    ∃ x ∈ allRows s, r = x ∨ r = { x with archived := true } := by
  induction s with
  | nil => exact absurd hr (List.not_mem_nil r)
  | cons shard rest ih =>
    obtain ⟨y, rows⟩ := shard
    cases hsm : shardMatch rows event_id with
    | some ev =>
      have hcur : (archive_event ((y, rows) :: rest) event_id).1
          = (y, rows.map (archiveRow event_id)) :: rest := by
        simp only [archive_event, hsm]
      rw [hcur, allRows_cons] at hr
      rcases List.mem_append.mp hr with h | h
      · obtain ⟨x, hx, hxr⟩ := List.mem_map.mp h
        refine ⟨x, by rw [allRows_cons]; exact List.mem_append_left _ hx, ?_⟩
        unfold archiveRow at hxr
        by_cases hxid : x.id = event_id
        · right; rw [← hxr, if_pos hxid]
        · left; rw [← hxr, if_neg hxid]
      · exact ⟨r, by rw [allRows_cons]; exact List.mem_append_right _ h, Or.inl rfl⟩
    | none =>
      have hcur : (archive_event ((y, rows) :: rest) event_id).1
          = (y, rows) :: (archive_event rest event_id).1 := by
        simp only [archive_event, hsm]
      rw [hcur, allRows_cons] at hr
      rcases List.mem_append.mp hr with h | h
      · exact ⟨r, by rw [allRows_cons]; exact List.mem_append_left _ h, Or.inl rfl⟩
      · obtain ⟨x, hx, hd⟩ := ih h
        exact ⟨x, by rw [allRows_cons]; exact List.mem_append_right _ hx, hd⟩

theorem count_applyOp (s : Store) (op : Op) (e : TimelineEvent)
    (hparse : (parseYear e.date).isSome)
    (h1 : ∀ event_id, op = Op.archive event_id → event_id ≠ e.id)
    (h2 : ∀ event_id ce, op = Op.correct event_id ce →
      event_id ≠ e.id ∧ forceCorrection ce ≠ e) :
    (allRows (applyOp s op)).count e
      = (allRows s).count e + (if op = Op.add e then 1 else 0) := by
  cases op with
  | add e' =>
    by_cases he : e' = e
    · subst he
      obtain ⟨y, hy⟩ := Option.isSome_iff_exists.mp hparse
      have : applyOp s (Op.add e') = addToShards s y e' := by
        simp only [applyOp, add_event, hy, Option.map_some', Option.getD_some]
      rw [this, if_pos rfl, (allRows_addToShards s y e').count_eq, List.count_cons_self]
    · rw [if_neg (by simpa using he)]
      cases hp : parseYear e'.date with
      | none =>
        simp only [applyOp, add_event, hp, Option.map_none', Option.getD_none]
        rfl
      | some y =>
        have : applyOp s (Op.add e') = addToShards s y e' := by
          simp only [applyOp, add_event, hp, Option.map_some', Option.getD_some]
        rw [this, (allRows_addToShards s y e').count_eq,
          List.count_cons_of_ne (fun hc => he hc.symm)]
        rfl
  | archive event_id =>
    rw [if_neg (by simp)]
    exact count_archive_state s event_id e (Ne.symm (h1 event_id rfl))
  | correct event_id ce =>
    rw [if_neg (by simp)]
    obtain ⟨hid, hce⟩ := h2 event_id ce rfl
    cases harc : (archive_event s event_id).2 with
    | none =>
      simp only [applyOp, harc]
      rfl
    | some ev =>
      have hstate := count_archive_state s event_id e (Ne.symm hid)
      cases hp : parseYear (forceCorrection ce).date with
      | none =>
        simp only [applyOp, harc, add_event, hp, Option.map_none', Option.getD_none]
        exact hstate
      | some y =>
        have : applyOp s (Op.correct event_id ce)
            = addToShards (archive_event s event_id).1 y (forceCorrection ce) := by
          simp only [applyOp, harc, add_event, hp, Option.map_some', Option.getD_some]
        rw [this, (allRows_addToShards _ y _).count_eq,
          List.count_cons_of_ne (Ne.symm hce), hstate]
        rfl

theorem count_applyOps (ops : List Op) (s : Store) (e : TimelineEvent)
    (hparse : (parseYear e.date).isSome)
    (harc : ∀ event_id, Op.archive event_id ∈ ops → event_id ≠ e.id)
    (hcor : ∀ event_id ce, Op.correct event_id ce ∈ ops →
      event_id ≠ e.id ∧ forceCorrection ce ≠ e) :
    (allRows (applyOps s ops)).count e = (allRows s).count e + ops.count (Op.add e) := by
  induction ops generalizing s with
  | nil => simp [applyOps]
  | cons op rest ih =>
    have hstep : applyOps s (op :: rest) = applyOps (applyOp s op) rest := rfl
    rw [hstep, ih (applyOp s op)
      (fun event_id h => harc event_id (List.mem_cons_of_mem op h))
      (fun event_id ce h => hcor event_id ce (List.mem_cons_of_mem op h)),
      count_applyOp s op e hparse
      (fun event_id h => harc event_id (h ▸ List.mem_cons_self op rest))
      (fun event_id ce h => hcor event_id ce (h ▸ List.mem_cons_self op rest)),
      List.count_cons]
    by_cases hop : op = Op.add e
    · simp [hop]
      omega
    · simp [hop, fun h : Op.add e = op => hop h.symm]

/-- C2: the append-only invariant.  For any sequence of
`add_event`/`archive_event`/`correct_event` operations run from the empty
store, an event that was added exactly once (with a parseable date, not
pre-archived), never targeted by an archive or correct operation, and never
re-introduced by a correction, is present as an unedited record exactly once
in the final shards, and the default (`include_archived = false`) query
returns it exactly once.  Moreover every record ever present after a step is
either a record of the previous state, such a record with only its
`archived` flag flipped to true, the record appended by an `add`, or the
source-forced replacement appended by a `correct` — record content is never
otherwise edited. -/
theorem claim_C2_append_only (ops : List Op) (e : TimelineEvent)
    (hparse : (parseYear e.date).isSome) (harch : e.archived = false)
    (hadd : ops.count (Op.add e) = 1)
    (harc : ∀ event_id, Op.archive event_id ∈ ops → event_id ≠ e.id)
    (hcor : ∀ event_id ce, Op.correct event_id ce ∈ ops →
      event_id ≠ e.id ∧ forceCorrection ce ≠ e) :
    ((allRows (applyOps [] ops)).count e = 1
      ∧ (get_events (applyOps [] ops) none none none none false).count e = 1)
    ∧ ∀ (s : Store) (op : Op) (r : TimelineEvent), r ∈ allRows (applyOp s op) →
        (∃ x ∈ allRows s, r = x ∨ r = { x with archived := true })
        ∨ (∃ e', op = Op.add e' ∧ r = e')
        ∨ (∃ event_id ce, op = Op.correct event_id ce ∧ r = forceCorrection ce) := by
  constructor
  · have hrows : (allRows (applyOps [] ops)).count e = 1 := by
      rw [count_applyOps ops [] e hparse harc hcor, hadd]
      rfl
    refine ⟨hrows, ?_⟩
    unfold get_events candidates
    rw [List.count_filter (by rw [Option.getD_none, in_range_active, harch]; rfl)]
    exact hrows
  · intro s op r hr
    cases op with
    | add e' =>
      cases hp : parseYear e'.date with
      | none =>
        simp only [applyOp, add_event, hp, Option.map_none', Option.getD_none] at hr
        exact Or.inl ⟨r, hr, Or.inl rfl⟩
      | some y =>
        simp only [applyOp, add_event, hp, Option.map_some', Option.getD_some] at hr
        rw [(allRows_addToShards s y e').mem_iff] at hr
        rcases List.mem_cons.mp hr with h | h
        · exact Or.inr (Or.inl ⟨e', rfl, h⟩)
        · exact Or.inl ⟨r, h, Or.inl rfl⟩
    | archive event_id =>
      exact Or.inl (mem_archive_state s event_id r hr)
    | correct event_id ce =>
      cases harc2 : (archive_event s event_id).2 with
      | none =>
        simp only [applyOp, harc2] at hr
        exact Or.inl ⟨r, hr, Or.inl rfl⟩
      | some ev =>
        cases hp : parseYear (forceCorrection ce).date with
        | none =>
          simp only [applyOp, harc2, add_event, hp, Option.map_none', Option.getD_none] at hr
          exact Or.inl (mem_archive_state s event_id r hr)
        | some y =>
          simp only [applyOp, harc2, add_event, hp, Option.map_some', Option.getD_some] at hr
          rw [(allRows_addToShards _ y _).mem_iff] at hr
          rcases List.mem_cons.mp hr with h | h
          · exact Or.inr (Or.inr ⟨event_id, ce, rfl, h⟩)
          · exact Or.inl (mem_archive_state s event_id r h)

/-- Witness for C2: a concrete operation sequence — add two events, archive
and correct the other one — leaves the untouched event stored and queried
exactly once. -/
theorem claim_C2_witness :
    ((allRows (applyOps []
        [Op.add evBjj, Op.add evNote, Op.archive "e3", Op.correct "e3" ceSample])).count evBjj = 1
      ∧ (get_events (applyOps []
          [Op.add evBjj, Op.add evNote, Op.archive "e3", Op.correct "e3" ceSample])
          none none none none false).count evBjj = 1)
    ∧ ∀ (s : Store) (op : Op) (r : TimelineEvent), r ∈ allRows (applyOp s op) →
        (∃ x ∈ allRows s, r = x ∨ r = { x with archived := true })
        ∨ (∃ e', op = Op.add e' ∧ r = e')
        ∨ (∃ event_id ce, op = Op.correct event_id ce ∧ r = forceCorrection ce) :=
  claim_C2_append_only
    [Op.add evBjj, Op.add evNote, Op.archive "e3", Op.correct "e3" ceSample] evBjj
    (by decide) (by decide) (by decide)
    (by
      intro event_id h
      simp only [List.mem_cons, List.not_mem_nil, or_false] at h
      rcases h with h | h | h | h
      · exact absurd h (by simp)
      · exact absurd h (by simp)
      · rw [Op.archive.injEq] at h
        subst h
        decide
      · exact absurd h (by simp))
    (by
      intro event_id ce h
      simp only [List.mem_cons, List.not_mem_nil, or_false] at h
      rcases h with h | h | h | h
      · exact absurd h (by simp)
      · exact absurd h (by simp)
      · exact absurd h (by simp)
      · rw [Op.correct.injEq] at h
        obtain ⟨h1, h2⟩ := h
        subst h1
        subst h2
        decide)

/-- Witness for C1 at a concrete store: correcting the unique active record
"e3" stores and returns the source-forced corrected event. -/
theorem claim_C1_witness :
    ∃ s', correct_event storeSample "e3" ceSample = some (s', some (forceCorrection ceSample))
      ∧ List.Perm (allRows s')
          ({ evNote with archived := true } :: forceCorrection ceSample
            :: (allRows storeSample).erase evNote) := by
  obtain ⟨s', h1, h2, _⟩ := (claim_C1_correct_event_contract storeSample "e3" ceSample).2
    evNote (by decide) (by decide) (by decide) (by decide) (by decide) (by decide)
  exact ⟨s', h1, h2⟩

/-- C5: archive idempotence.  When the store contains a record with the
given id, the second of two consecutive `archive_event` calls is a complete
no-op on the persisted shards — `archive_event` applied to the once-archived
store returns that store and the same (archived) event again — so calling
it twice leaves the shards exactly as calling it once, and the repeat call
still returns the archived event. -/
theorem claim_C5_archive_idempotent (s : Store) (event_id : String)
    (h : ∃ r ∈ allRows s, r.id = event_id) :
    archive_event (archive_event s event_id).1 event_id = archive_event s event_id
    ∧ ∃ ev, (archive_event s event_id).2 = some ev ∧ ev.archived = true := by
  induction s with
  | nil =>
    rcases h with ⟨r, hr, _⟩
    exact absurd hr (List.not_mem_nil r)
  | cons shard rest ih =>
    obtain ⟨y, rows⟩ := shard
    rcases hsm : shardMatch rows event_id with _ | ev
    · have hrest : ∃ r ∈ allRows rest, r.id = event_id := by
        rcases h with ⟨r, hr, hid⟩
        rw [allRows_cons, List.mem_append] at hr
        rcases hr with hr | hr
        · exact absurd (shardMatch_isSome_of_mem hr hid) (by rw [hsm]; simp)
        · exact ⟨r, hr, hid⟩
      obtain ⟨hstate, ev, hev, harch⟩ := ih hrest
      have hcur : archive_event ((y, rows) :: rest) event_id
          = ((y, rows) :: (archive_event rest event_id).1, (archive_event rest event_id).2) := by
        simp only [archive_event, hsm]
      have hcur2 : archive_event ((y, rows) :: (archive_event rest event_id).1) event_id
          = ((y, rows) :: (archive_event (archive_event rest event_id).1 event_id).1,
             (archive_event (archive_event rest event_id).1 event_id).2) := by
        simp only [archive_event, hsm]
      refine ⟨?_, ev, ?_, harch⟩
      · rw [hcur]
        simp only
        rw [hcur2, hstate]
      · rw [hcur]
        exact hev
    · have harch := shardMatch_archived hsm
      have hcur : archive_event ((y, rows) :: rest) event_id
          = ((y, rows.map (archiveRow event_id)) :: rest, some ev) := by
        simp only [archive_event, hsm]
      have hsm2 : shardMatch (rows.map (archiveRow event_id)) event_id = some ev := by
        rw [shardMatch_map, hsm]
      constructor
      · rw [hcur]
        simp only [archive_event, hsm2, map_archiveRow_idem]
      · refine ⟨ev, ?_, harch⟩
        rw [hcur]

/-- Witness for C5 at a concrete two-shard store. -/
theorem claim_C5_witness :
    archive_event (archive_event storeSample "e1").1 "e1" = archive_event storeSample "e1"
    ∧ ∃ ev, (archive_event storeSample "e1").2 = some ev ∧ ev.archived = true :=
  claim_C5_archive_idempotent storeSample "e1" ⟨evHoliday, by decide, by decide⟩

/-- C3: `get_events` returns exactly the candidate events — drawn from the
single requested year shard, or from all existing shards when `year` is
omitted — that simultaneously satisfy every applicable predicate: not
archived unless `include_archived = true`, non-empty tag intersection when
tags are given, and the date bounded lexicographically (the `String` order)
by whichever of `start_date`/`end_date` are given.  Stated as a membership
characterisation plus multiplicity preservation (matching records keep their
candidate multiplicity, non-matching records are absent). -/
theorem claim_C3_query_conjunctive (s : Store) (year : Option Nat)
    (start_date end_date : Option String) (tags : Option (List String))
    (include_archived : Bool) (e : TimelineEvent)
    (hs : start_date ≠ some "") (he : end_date ≠ some "") :
    (e ∈ get_events s year start_date end_date tags include_archived ↔
       e ∈ candidates s year
       ∧ (include_archived = false → e.archived = false)
       ∧ (tags.getD [] ≠ [] → ∃ t ∈ tags.getD [], t ∈ e.tags)
       ∧ (∀ d, start_date = some d → d ≤ e.date)
       ∧ (∀ d, end_date = some d → e.date ≤ d))
    ∧ (((include_archived = false → e.archived = false)
        ∧ (tags.getD [] ≠ [] → ∃ t ∈ tags.getD [], t ∈ e.tags)
        ∧ (∀ d, start_date = some d → d ≤ e.date)
        ∧ (∀ d, end_date = some d → e.date ≤ d)) →
      List.count e (get_events s year start_date end_date tags include_archived)
        = List.count e (candidates s year))
    ∧ (¬ ((include_archived = false → e.archived = false)
        ∧ (tags.getD [] ≠ [] → ∃ t ∈ tags.getD [], t ∈ e.tags)
        ∧ (∀ d, start_date = some d → d ≤ e.date)
        ∧ (∀ d, end_date = some d → e.date ≤ d)) →
      List.count e (get_events s year start_date end_date tags include_archived) = 0) := by
  have hiff := in_range_iff include_archived (tags.getD []) start_date end_date e hs he
  refine ⟨?_, ?_, ?_⟩
  · rw [get_events, List.mem_filter, hiff]
  · intro hP
    rw [get_events]
    exact List.count_filter (hiff.mpr hP)
  · intro hP
    rw [get_events, List.count_eq_zero]
    intro hmem
    exact hP (hiff.mp (List.mem_filter.mp hmem).2)

/-- Witness for C3 at a concrete store and query: the theorem's membership
characterisation places `evHoliday` in the tag-and-date-filtered query
result. -/
theorem claim_C3_witness :
    evHoliday ∈ get_events storeSample none (some "2024-06-01") (some "2024-12-31")
      (some ["holiday"]) false := by
  refine (claim_C3_query_conjunctive storeSample none (some "2024-06-01")
    (some "2024-12-31") (some ["holiday"]) false evHoliday
    (by decide) (by decide)).1.mpr ?_
  refine ⟨by decide, by decide, by decide, ?_, ?_⟩
  · intro d hd
    cases hd
    rw [String.le_iff_toList_le]
    decide
  · intro d hd
    cases hd
    rw [String.le_iff_toList_le]
    decide

/-! ## The task summary (C7) -/

/-- The `efficiency_score` a `summarize_month_tasks` call returns, by the
cases of the collaborator's monthly summary: the initial 0.0 survives
unless the collaborator explicitly supplied `None` (only then does the
`completed / (completed + overdue or 1)` recomputation run), and a
supplied number passes through. -/
theorem summarize_month_tasks_eff (t : TaskEngine) :
    (summarize_month_tasks t).efficiency_score =
      match t.summarize_month with
      | none => some 0
      | some r =>
        match r.efficiency_score with
        | none => some 0
        | some (some v) => some v
        | some none =>
          some (round2 (mkRat ((r.completed.getD []).length : ℤ)
            (if (r.completed.getD []).length + (r.overdue.getD []).length = 0 then 1
              else (r.completed.getD []).length + (r.overdue.getD []).length))) := by
  rcases hs : t.summarize_month with _ | r
  · rcases hw : t.weekly_breakdown with _ | wb <;>
      rcases hb : t.breakdown_by_week with _ | wb2 <;>
      simp [summarize_month_tasks, hs, hw, hb]
  · rcases he : r.efficiency_score with _ | v
    · rcases hw : t.weekly_breakdown with _ | wb <;>
        rcases hb : t.breakdown_by_week with _ | wb2 <;>
        simp [summarize_month_tasks, hs, hw, hb, he]
    · rcases v with _ | v
      · rcases hw : t.weekly_breakdown with _ | wb <;>
          rcases hb : t.breakdown_by_week with _ | wb2 <;>
          simp [summarize_month_tasks, hs, hw, hb, he]
      · rcases hw : t.weekly_breakdown with _ | wb <;>
          rcases hb : t.breakdown_by_week with _ | wb2 <;>
          simp [summarize_month_tasks, hs, hw, hb, he]

/-- Counterexample to C7 as stated: a collaborator exposing only the
individually-named accessors supplies no efficiency score, yet with one
completed and no overdue task `summarize_month_tasks` returns the initial
0.0, not the claimed `completed / max(1, completed + overdue) = 1`: the
recomputation is dead code unless an explicit `None` value arrived,
because the `efficiency_score` key is always present after
initialisation. -/
theorem claim_C7_counterexample :
    (summarize_month_tasks { get_completed_tasks := some ["t1"] }).completed = ["t1"]
    ∧ (summarize_month_tasks { get_completed_tasks := some ["t1"] }).overdue = []
    ∧ (summarize_month_tasks { get_completed_tasks := some ["t1"] }).efficiency_score = some 0
    ∧ round2 (mkRat (1 : ℤ) (max 1 (1 + 0))) = 1
    ∧ (0 : ℚ) ≠ 1 := by
  refine ⟨rfl, rfl, rfl, ?_, by norm_num⟩
  show round2 (mkRat (1 : ℤ) (max 1 (1 + 0))) = 1
  norm_num [round2, roundHalfEven, mkRat, Rat.normalize]

/-- C7 (amended): the initial 0.0 survives whenever the collaborator
supplied no `efficiency_score` value at all — whether it exposes no
monthly summary (accessors-only gathering) or a monthly summary without
that key; a supplied number passes through; and the claimed
`round(completed / max(1, completed + overdue), 2)` recomputation from the
gathered lists runs exactly when the supplied value was an explicit
`None`. -/
theorem claim_C7_task_efficiency (t : TaskEngine) :
    (t.summarize_month = none →
      (summarize_month_tasks t).efficiency_score = some 0)
    ∧ (∀ r, t.summarize_month = some r → r.efficiency_score = none →
      (summarize_month_tasks t).efficiency_score = some 0)
    ∧ (∀ r v, t.summarize_month = some r → r.efficiency_score = some (some v) →
      (summarize_month_tasks t).efficiency_score = some v)
    ∧ (∀ r, t.summarize_month = some r → r.efficiency_score = some none →
      (summarize_month_tasks t).efficiency_score =
        some (round2 (mkRat ((r.completed.getD []).length : ℤ)
          (max 1 ((r.completed.getD []).length + (r.overdue.getD []).length))))) := by
  have heff := summarize_month_tasks_eff t
  refine ⟨?_, ?_, ?_, ?_⟩
  · intro hs
    rw [heff, hs]
  · intro r hs he
    rw [heff, hs]
    simp only [he]
  · intro r v hs he
    rw [heff, hs]
    simp only [he]
  · intro r hs he
    rw [heff, hs]
    simp only [he]
    have hmax : (if (r.completed.getD []).length + (r.overdue.getD []).length = 0 then 1
        else (r.completed.getD []).length + (r.overdue.getD []).length : ℕ)
        = (max 1 ((r.completed.getD []).length + (r.overdue.getD []).length) : ℕ) := by
      split <;> omega
    rw [hmax]

/-- Witness for C7 at the concrete collaborator `tEx` (explicit `None`
efficiency, two completed and one overdue task): the recomputation yields
`round(2/3, 2) = 0.67`. -/
theorem claim_C7_witness :
    (summarize_month_tasks tEx).efficiency_score = some (mkRat 67 100) := by
  have h := (claim_C7_task_efficiency tEx).2.2.2 trEx rfl rfl
  rw [h]
  decide

/-! ## Epic progression (C8) -/

/-- `dictAppend` grows exactly the entry of the given key (or appends a
fresh singleton entry), as seen through `dictGet`. -/
theorem dictGet_dictAppend (d : List (String × List TimelineEvent)) (k0 k : String)
    (v : TimelineEvent) :
    dictGet (dictAppend d k0 v) k = dictGet d k ++ (if k0 = k then [v] else []) := by
  induction d with
  | nil =>
    by_cases h : k0 = k <;> simp [dictAppend, dictGet, h]
  | cons p rest ih =>
    by_cases h1 : p.1 = k0
    · by_cases h2 : p.1 = k
      · have hk : k0 = k := by rw [← h1]; exact h2
        simp [dictAppend, dictGet, h1, h2, hk]
      · have hk : ¬ k0 = k := by rw [← h1]; exact h2
        simp [dictAppend, dictGet, h1, h2, hk]
    · by_cases h2 : p.1 = k
      · have hk : ¬ k0 = k := fun hkk => h1 (by rw [h2, ← hkk])
        have h1k : ¬ k = k0 := fun hq => h1 (h2.trans hq)
        simp [dictAppend, dictGet, h1, h2, hk, h1k]
      · simp [dictAppend, dictGet, h1, h2, ih]

/-- Folding `dictAppend` over a pair list appends, per key, exactly the
values paired with that key, in order. -/
theorem dictGet_foldAppend (ps : List (String × TimelineEvent))
    (d : List (String × List TimelineEvent)) (k : String) :
    dictGet (ps.foldl (fun d p => dictAppend d p.1 p.2) d) k
      = dictGet d k ++ (ps.filter (fun p => p.1 = k)).map (fun p => p.2) := by
  induction ps generalizing d with
  | nil => simp
  | cons p rest ih =>
    rw [List.foldl_cons, ih, dictGet_dictAppend, List.filter_cons]
    by_cases h : p.1 = k <;> simp [h]

/-- `dictAppend` keeps the key list, only appending a genuinely new key at
the end. -/
theorem dictAppend_keys (d : List (String × List TimelineEvent)) (k : String)
    (v : TimelineEvent) :
    (dictAppend d k v).map Prod.fst
      = if k ∈ d.map Prod.fst then d.map Prod.fst else d.map Prod.fst ++ [k] := by
  induction d with
  | nil => simp [dictAppend]
  | cons p rest ih =>
    by_cases h : p.1 = k
    · simp [dictAppend, h]
    · have hne : ¬ k = p.1 := fun hk => h hk.symm
      by_cases h2 : k ∈ rest.map Prod.fst <;>
        simp [dictAppend, h, ih, List.mem_cons, hne, h2]

/-- `dictAppend` preserves distinctness of the keys. -/
theorem dictAppend_keys_nodup (d : List (String × List TimelineEvent)) (k : String)
    (v : TimelineEvent) (h : (d.map Prod.fst).Nodup) :
    ((dictAppend d k v).map Prod.fst).Nodup := by
  rw [dictAppend_keys]
  split
  · exact h
  · next hk =>
    rw [← List.concat_eq_append]
    exact List.Nodup.concat hk h

/-- The keys of the `epic_events` dict are distinct (each `setdefault`
either reuses an entry or appends a fresh key). -/
theorem epicDict_keys_nodup (events : List TimelineEvent) :
    ((epicDict events).map Prod.fst).Nodup := by
  unfold epicDict
  generalize epicPairs events = ps
  have main : ∀ (ps : List (String × TimelineEvent)) (d : List (String × List TimelineEvent)),
      (d.map Prod.fst).Nodup →
      ((ps.foldl (fun d p => dictAppend d p.1 p.2) d).map Prod.fst).Nodup := by
    intro ps
    induction ps with
    | nil => intro d hd; exact hd
    | cons p rest ih =>
      intro d hd
      exact ih _ (dictAppend_keys_nodup d p.1 p.2 hd)
  exact main ps [] (by simp)

/-- With distinct keys, every dict entry is retrieved by its own key. -/
theorem dictGet_of_mem (d : List (String × List TimelineEvent))
    (pr : String × List TimelineEvent) (hnd : (d.map Prod.fst).Nodup) (h : pr ∈ d) :
    dictGet d pr.1 = pr.2 := by
  induction d with
  | nil => cases h
  | cons p rest ih =>
    rw [List.map_cons, List.nodup_cons] at hnd
    rcases List.mem_cons.mp h with rfl | hmem
    · simp [dictGet]
    · have hne : ¬ p.1 = pr.1 := by
        intro he
        exact hnd.1 (he ▸ List.mem_map_of_mem Prod.fst hmem)
      simp only [dictGet, hne, if_false]
      exact ih hnd.2 hmem

/-- The pairs of the nested tag loop, restricted to one epic, are exactly
the spec's group for that epic: each event once per matching tag, in
order. -/
theorem epicPairs_filter (events : List TimelineEvent) (k : String) :
    ((epicPairs events).filter (fun p => p.1 = k)).map (fun p => p.2)
      = epicGroupSpec events k := by
  unfold epicPairs epicGroupSpec
  induction events with
  | nil => simp
  | cons e rest ih =>
    simp only [List.flatMap_cons, List.filter_append, List.map_append, ih]
    congr 1
    induction e.tags with
    | nil => simp
    | cons t ts iht =>
      rcases ho : epicOfTag t with _ | k2
      · simp [List.filterMap_cons, List.filter_cons, ho, iht]
      · by_cases hk : k2 = k <;>
          simp [List.filterMap_cons, List.filter_cons, ho, hk, iht]

/-- Each group of the `epic_events` dict is the spec's group of its own
epic. -/
theorem epicDict_group (events : List TimelineEvent) (pr : String × List TimelineEvent)
    (h : pr ∈ epicDict events) : pr.2 = epicGroupSpec events pr.1 := by
  have h1 : dictGet (epicDict events) pr.1 = pr.2 :=
    dictGet_of_mem _ _ (epicDict_keys_nodup events) h
  rw [← h1]
  unfold epicDict
  rw [dictGet_foldAppend]
  simp only [dictGet, List.nil_append]
  exact epicPairs_filter events pr.1

/-- C8: every record of `detect_epic_progression` reports, for its epic,
the size of the group that holds each event once per carried tag mapping
to that epic (so a doubly-tagged event counts twice), and the group's
truthy titles as milestones; concretely, one event tagged
`["robotics", "omega1"]` alone yields the epic "Robotics: Omega-1" with
"2 updates recorded." and its title listed twice. -/
theorem claim_C8_epic_double_count :
    (∀ events : List TimelineEvent, ∀ rec ∈ detect_epic_progression events,
      rec.progress = toString (epicGroupSpec events rec.epic).length ++ " updates recorded."
      ∧ rec.milestones
        = ((epicGroupSpec events rec.epic).filter (fun e => e.title != "")).map
            (fun e => e.title))
    ∧ detect_epic_progression [evRob] = [recRob] := by
  constructor
  · intro events rec hrec
    unfold detect_epic_progression at hrec
    obtain ⟨pr, hpr, rfl⟩ := List.mem_map.mp hrec
    have hg := epicDict_group events pr hpr
    constructor
    · show toString pr.2.length ++ " updates recorded."
        = toString (epicGroupSpec events pr.1).length ++ " updates recorded."
      rw [hg]
    · show (pr.2.filter (fun e => e.title != "")).map (fun e => e.title)
        = ((epicGroupSpec events pr.1).filter (fun e => e.title != "")).map (fun e => e.title)
      rw [hg]
  · decide

/-- Witness for C8 at the concrete doubly-tagged event `evRob`: the
theorem applied to the record `detect_epic_progression [evRob]` contains. -/
theorem claim_C8_witness :
    recRob.progress = toString (epicGroupSpec [evRob] recRob.epic).length ++ " updates recorded."
    ∧ recRob.milestones
      = ((epicGroupSpec [evRob] recRob.epic).filter (fun e => e.title != "")).map
          (fun e => e.title) :=
  claim_C8_epic_double_count.1 [evRob] recRob (by decide)

/-! ## Monthly themes (C9) -/

/-- The two nested counting loops of `infer_monthly_themes` equal one fold
over the flattened tag sequence. -/
theorem tagCounts_eq_flat (events : List TimelineEvent) :
    tagCounts events = (events.flatMap (fun e => e.tags)).foldl bumpCount [] := by
  have main : ∀ (evs : List TimelineEvent) (d : List (String × Nat)),
      evs.foldl (fun d e => e.tags.foldl bumpCount d) d
        = (evs.flatMap (fun e => e.tags)).foldl bumpCount d := by
    intro evs
    induction evs with
    | nil => intro d; rfl
    | cons e rest ih =>
      intro d
      rw [List.foldl_cons, ih, List.flatMap_cons, List.foldl_append]
  exact main events []

/-- `bumpCount` keeps the key list, only appending a genuinely new key at
the end. -/
theorem bumpCount_keys (d : List (String × Nat)) (k : String) :
    (bumpCount d k).map Prod.fst
      = if k ∈ d.map Prod.fst then d.map Prod.fst else d.map Prod.fst ++ [k] := by
  induction d with
  | nil => simp [bumpCount]
  | cons p rest ih =>
    by_cases h : p.1 = k
    · simp [bumpCount, h]
    · have hne : ¬ k = p.1 := fun hk => h hk.symm
      by_cases h2 : k ∈ rest.map Prod.fst <;>
        simp [bumpCount, h, ih, List.mem_cons, hne, h2]

/-- Folding `bumpCount` lists the keys in first-seen order, continuing
from the keys already present. -/
theorem foldl_bumpCount_keys (ts : List String) (d : List (String × Nat)) :
    (ts.foldl bumpCount d).map Prod.fst
      = d.map Prod.fst ++ dedupFirstAux (d.map Prod.fst) ts := by
  induction ts generalizing d with
  | nil => simp [dedupFirstAux]
  | cons t ts ih =>
    rw [List.foldl_cons, ih, bumpCount_keys]
    by_cases h : t ∈ d.map Prod.fst
    · rw [if_pos h]
      simp [dedupFirstAux, h]
    · rw [if_neg h]
      simp [dedupFirstAux, h, bumpCount_keys, List.append_assoc]

/-- The keys of `tag_counts` are the month's distinct tags in first-seen
order. -/
theorem tagCounts_keys (events : List TimelineEvent) :
    (tagCounts events).map Prod.fst = dedupFirst (events.flatMap (fun e => e.tags)) := by
  rw [tagCounts_eq_flat, dedupFirst]
  simpa using foldl_bumpCount_keys (events.flatMap (fun e => e.tags)) []

/-- `bumpCount` keeps every count at least 1. -/
theorem bumpCount_pos (d : List (String × Nat)) (k : String)
    (h : ∀ p ∈ d, 1 ≤ p.2) : ∀ p ∈ bumpCount d k, 1 ≤ p.2 := by
  induction d with
  | nil =>
    intro p hp
    rw [bumpCount] at hp
    rcases List.mem_singleton.mp hp with rfl
    exact le_refl 1
  | cons q rest ih =>
    intro p hp
    rw [bumpCount] at hp
    by_cases hq : q.1 = k
    · rw [if_pos hq] at hp
      rcases List.mem_cons.mp hp with rfl | hmem
      · have := h q (List.mem_cons_self q rest)
        omega
      · exact h p (List.mem_cons_of_mem q hmem)
    · rw [if_neg hq] at hp
      rcases List.mem_cons.mp hp with rfl | hmem
      · exact h p (List.mem_cons_self p rest)
      · exact ih (fun r hr => h r (List.mem_cons_of_mem q hr)) p hmem

/-- Every count `tag_counts` produces is at least 1. -/
theorem tagCounts_pos (events : List TimelineEvent) :
    ∀ p ∈ tagCounts events, 1 ≤ p.2 := by
  rw [tagCounts_eq_flat]
  have main : ∀ (ts : List String) (d : List (String × Nat)),
      (∀ p ∈ d, 1 ≤ p.2) → ∀ p ∈ ts.foldl bumpCount d, 1 ≤ p.2 := by
    intro ts
    induction ts with
    | nil => intro d hd; exact hd
    | cons t ts ih =>
      intro d hd
      exact ih _ (bumpCount_pos d t hd)
  exact main _ [] (by simp)

/-- Inserting among all-equal counts puts the item first (stability when
every frequency ties). -/
theorem insCountDesc_all_eq (x : String × Nat) (l : List (String × Nat))
    (hx : x.2 = 1) (hl : ∀ p ∈ l, p.2 = 1) : insCountDesc x l = x :: l := by
  cases l with
  | nil => rfl
  | cons y ys =>
    rw [insCountDesc, if_neg]
    have := hl y (List.mem_cons_self y ys)
    omega

/-- The stable descending sort fixes a list whose counts all tie. -/
theorem sortCountDesc_all_eq (l : List (String × Nat))
    (hl : ∀ p ∈ l, p.2 = 1) : sortCountDesc l = l := by
  induction l with
  | nil => rfl
  | cons x xs ih =>
    rw [sortCountDesc, ih (fun p hp => hl p (List.mem_cons_of_mem x hp))]
    exact insCountDesc_all_eq x xs (hl x (List.mem_cons_self x xs))
      (fun p hp => hl p (List.mem_cons_of_mem x hp))

/-- When no count exceeds 1, no tag passes the `count > 1` filter. -/
theorem filter_gt_one_nil (l : List (String × Nat)) (h : ∀ p ∈ l, p.2 ≤ 1) :
    l.filter (fun p => 1 < p.2) = [] := by
  induction l with
  | nil => rfl
  | cons p rest ih =>
    have hp : ¬ 1 < p.2 := by
      have := h p (List.mem_cons_self p rest)
      omega
    simp only [List.filter_cons, decide_eq_true_eq, hp, if_false]
    exact ih (fun q hq => h q (List.mem_cons_of_mem p hq))

/-- The tie-break of the trending fallback: when every tag frequency is at
most 1, `trending` is the first three distinct tags in first-seen order. -/
theorem trendingTags_tie_break (events : List TimelineEvent)
    (h : ∀ p ∈ tagCounts events, p.2 ≤ 1) :
    trendingTags events = (dedupFirst (events.flatMap (fun e => e.tags))).take 3 := by
  have hkeys := tagCounts_keys events
  have hfil := filter_gt_one_nil (tagCounts events) h
  simp only [trendingTags]
  rw [hfil]
  simp only [List.map_nil, List.isEmpty_nil, Bool.true_and]
  by_cases hemp : (tagCounts events).isEmpty = true
  · rw [hemp]
    have hnil : tagCounts events = [] := List.isEmpty_iff.mp hemp
    rw [hnil] at hkeys
    simp only [List.map_nil] at hkeys
    rw [← hkeys]
    simp
  · have hemp' : (tagCounts events).isEmpty = false := by
      rcases Bool.eq_false_or_eq_true ((tagCounts events).isEmpty) with ht | hf
      · exact absurd ht hemp
      · exact hf
    rw [hemp']
    have hall : ∀ p ∈ tagCounts events, p.2 = 1 := fun p hp =>
      Nat.le_antisymm (h p hp) (tagCounts_pos events p hp)
    simp only [Bool.not_false, if_true]
    rw [sortCountDesc_all_eq _ hall, hkeys]

/-- C9: `infer_monthly_themes` is a pure function of the event and
weekly-arc sequences — identical inputs give the identical themes list —
and the top-3 trending fallback breaks frequency ties by first-seen tag
order: when no frequency exceeds 1 the trending list is the first three
distinct tags in order of first appearance. -/
theorem claim_C9_theme_determinism :
    (∀ (e1 e2 : List TimelineEvent) (a1 a2 : List WeekArcEntry),
      e1 = e2 → a1 = a2 → infer_monthly_themes e1 a1 = infer_monthly_themes e2 a2)
    ∧ (∀ events : List TimelineEvent, (∀ p ∈ tagCounts events, p.2 ≤ 1) →
      trendingTags events = (dedupFirst (events.flatMap (fun e => e.tags))).take 3) := by
  constructor
  · intro e1 e2 a1 a2 he ha
    rw [he, ha]
  · exact trendingTags_tie_break

/-- Witness for C9 at concrete inputs: two singly-tagged events tie at
frequency 1, so the fallback lists their tags in first-seen order. -/
theorem claim_C9_witness :
    infer_monthly_themes [evBjj, evHoliday] [] = infer_monthly_themes [evBjj, evHoliday] []
    ∧ trendingTags [evBjj, evHoliday]
      = (dedupFirst ([evBjj, evHoliday].flatMap (fun e => e.tags))).take 3 :=
  ⟨claim_C9_theme_determinism.1 [evBjj, evHoliday] [evBjj, evHoliday] [] [] rfl rfl,
   claim_C9_theme_determinism.2 [evBjj, evHoliday] (by decide)⟩

/-! ## Empty-event-list aliasing in the monthly engine (C10) -/

/-- Python `[] or d` is `d` for the optional-events arguments. -/
theorem pyOptListOr_some_nil {α : Type} (d : List α) : pyOptListOr (some []) d = d := rfl

/-- Python `None or d` is `d` for the optional-events arguments. -/
theorem pyOptListOr_none {α : Type} (d : List α) : pyOptListOr none d = d := rfl

/-- The drift audit treats an empty passed list exactly like an omitted
one. -/
theorem drift_events_or (deps : EngineDeps) :
    run_monthly_drift_audit deps (some []) = run_monthly_drift_audit deps none := by
  simp only [run_monthly_drift_audit, pyOptListOr_some_nil, pyOptListOr_none]

/-- The weekly-arc synthesis treats an empty passed list exactly like an
omitted one. -/
theorem weekly_events_or (deps : EngineDeps) (now : PyDate) (sd ed : Option PyDate) :
    synthesize_weekly_arcs deps now sd ed (some [])
      = synthesize_weekly_arcs deps now sd ed none := by
  simp only [synthesize_weekly_arcs, pyOptListOr_some_nil, pyOptListOr_none]

/-- The narrative generator treats an empty passed list exactly like an
omitted one. -/
theorem narrative_events_or (deps : EngineDeps) (now : PyDate)
    (wa : Option (List WeekArcEntry)) :
    generate_month_narrative deps now (some []) wa
      = generate_month_narrative deps now none wa := by
  simp only [generate_month_narrative, pyOptListOr_some_nil, pyOptListOr_none]

/-- Counterexample to C10 as stated: over a requested January 2024 range
containing zero events, `construct_month_arc` narrates the re-gathered
*default current month* (June 2024, empty as well — the stitcher sees 0
events), not the entire timeline: stitching the whole store (the single
1999 event) would give "stitched-1", but the narrative hook is
"stitched-0". -/
theorem claim_C10_counterexample :
    (gather_month_events depsSample ⟨2024, 6, 15⟩
      (some ⟨2024, 1, 1⟩) (some ⟨2024, 1, 31⟩)).events = []
    ∧ (construct_month_arc depsSample ⟨2024, 6, 15⟩
      (some ⟨2024, 1, 1⟩) (some ⟨2024, 1, 31⟩)).narrative.hook = "stitched-0"
    ∧ depsSample.stitch (get_events depsSample.store none none none none true)
      = "stitched-1"
    ∧ ("stitched-0" : String) ≠ "stitched-1" := by
  refine ⟨by decide, by decide, by decide, by decide⟩

/-- C10 (amended): an empty events list is falsy, so each of the three
functions treats it exactly as an omitted argument; the drift-audit
fallback re-queries the whole store with `include_archived=true` (every
stored row); and when the requested range holds zero events,
`construct_month_arc`'s drift report is that full-store audit, while its
narrative re-gathers the *default current month* — not the entire
timeline. -/
theorem claim_C10_empty_events_alias (deps : EngineDeps) (now : PyDate)
    (sd ed : Option PyDate) (wa : Option (List WeekArcEntry)) :
    run_monthly_drift_audit deps (some []) = run_monthly_drift_audit deps none
    ∧ synthesize_weekly_arcs deps now sd ed (some [])
      = synthesize_weekly_arcs deps now sd ed none
    ∧ generate_month_narrative deps now (some []) wa
      = generate_month_narrative deps now none wa
    ∧ (run_monthly_drift_audit deps none).issues = deps.audit (allRows deps.store)
    ∧ ((gather_month_events deps now sd ed).events = [] →
      (construct_month_arc deps now sd ed).drift = run_monthly_drift_audit deps none
      ∧ (construct_month_arc deps now sd ed).narrative.hook
        = deps.stitch ((gather_month_events deps now none none).events)) := by
  refine ⟨drift_events_or deps, weekly_events_or deps now sd ed,
    narrative_events_or deps now wa, ?_, ?_⟩
  · simp only [run_monthly_drift_audit, pyOptListOr_none, get_events_all_archived]
  · intro h
    constructor
    · simp only [construct_month_arc, h]
      rw [drift_events_or]
    · simp only [construct_month_arc, h]
      rw [narrative_events_or]
      simp only [generate_month_narrative, pyOptListOr_none]

/-- Witness for C10 at the concrete collaborators `depsSample` over the
empty January 2024 range. -/
theorem claim_C10_witness :
    (gather_month_events depsSample ⟨2024, 6, 15⟩
      (some ⟨2024, 2, 1⟩) (some ⟨2024, 2, 29⟩)).events = []
    ∧ (construct_month_arc depsSample ⟨2024, 6, 15⟩
      (some ⟨2024, 2, 1⟩) (some ⟨2024, 2, 29⟩)).drift
      = run_monthly_drift_audit depsSample none := by
  refine ⟨by decide, ?_⟩
  exact ((claim_C10_empty_events_alias depsSample ⟨2024, 6, 15⟩
    (some ⟨2024, 2, 1⟩) (some ⟨2024, 2, 29⟩) none).2.2.2.2 (by decide)).1

end LoreBook
